import Mathlib

/-!
Verification of the relay-core traffic plugins: a shallow embedding of the
segment-proxy plugin (both source variants), the content-enricher plugin and
its factory, together with a byte-level model of the JSON encoding and
decoding they perform via encoding/json.

Bodies are lists of bytes.  JSON numbers are modelled as integers: the
plugins only ever produce and consume integer numerals (event kinds, unix
timestamps); fractional and exponent numerals, case-insensitive struct field
matching and UTF-16 surrogate escapes are outside the modelled subset and are
noted where relevant.
-/

set_option maxHeartbeats 1000000
set_option linter.unusedVariables false

namespace RelayCore

/-- Byte strings: request bodies and JSON text are lists of byte values. -/
abbrev Bytes := List Nat

/-- ASCII helper for concrete byte-string literals. -/
def ascii (s : String) : Bytes := s.toList.map Char.toNat

/-- JSON values as produced by encoding/json when decoding into
interface-typed values.  Object fields are kept as an association list in
decode order; the Go map semantics (unordered, unique keys) are recovered by
deduplicating at parse time and sorting keys at marshal time, exactly as
encoding/json does. -/
inductive Json where
  | null : Json
  | bool : Bool → Json
  | num : Int → Json
  | str : Bytes → Json
  | arr : List Json → Json
  | obj : List (Bytes × Json) → Json

mutual
/-- Fuel measure for the fueled JSON parser: enough fuel to parse the
marshalled form of a value. -/
def jsize : Json → Nat
  | .null => 1
  | .bool _ => 1
  | .num _ => 1
  | .str _ => 1
  | .arr es => 2 + jsizeList es
  | .obj kvs => 2 + jsizeFields kvs
def jsizeList : List Json → Nat
  | [] => 0
  | v :: vs => 1 + jsize v + jsizeList vs
def jsizeFields : List (Bytes × Json) → Nat
  | [] => 0
  | kv :: kvs => 1 + jsize kv.2 + jsizeFields kvs
end

/-- Byte-wise lexicographic order on byte strings; Go sorts object keys of a
map with this order when marshalling. -/
def bytesLe : Bytes → Bytes → Bool
  | [], _ => true
  | _ :: _, [] => false
  | a :: as, b :: bs => decide (a < b) || (decide (a = b) && bytesLe as bs)

/-- Key order on JSON object fields. -/
def fieldLe (a b : Bytes × Json) : Prop := bytesLe a.1 b.1 = true

/-- Key order on marshalled object fields. -/
def fieldStrLe (a b : Bytes × Bytes) : Prop := bytesLe a.1 b.1 = true

instance : DecidableRel fieldLe := fun a b => by unfold fieldLe; infer_instance
instance : DecidableRel fieldStrLe := fun a b => by unfold fieldStrLe; infer_instance

/-- Sort JSON object fields by key, as encoding/json does for Go maps. -/
def sortF (kvs : List (Bytes × Json)) : List (Bytes × Json) :=
  List.insertionSort fieldLe kvs

/-- Sort marshalled object fields by key. -/
def sortP (kvs : List (Bytes × Bytes)) : List (Bytes × Bytes) :=
  List.insertionSort fieldStrLe kvs

/-- Hex digit byte, lowercase, as emitted by encoding/json in escapes. -/
def hexDigitByte (n : Nat) : Nat := if n < 10 then 48 + n else 87 + n

/-- String escaping of a single byte, following encoding/json with its
default HTML escaping: quote and backslash get a backslash escape, newline,
carriage return and tab their short escapes, the HTML-relevant bytes and the
remaining control bytes a lowercase \u00xx escape, and every other byte is
emitted verbatim. -/
def escapeByte (b : Nat) : Bytes :=
  if b = 34 then [92, 34]
  else if b = 92 then [92, 92]
  else if b = 10 then [92, 110]
  else if b = 13 then [92, 114]
  else if b = 9 then [92, 116]
  else if b = 60 ∨ b = 62 ∨ b = 38 ∨ b < 32 then
    [92, 117, 48, 48, hexDigitByte (b / 16), hexDigitByte (b % 16)]
  else [b]

def escapeBytes : Bytes → Bytes
  | [] => []
  | b :: rest => escapeByte b ++ escapeBytes rest

/-- A JSON string literal: quote, escaped contents, quote. -/
def strLit (s : Bytes) : Bytes := 34 :: (escapeBytes s ++ [34])

/-- Decimal digits of a natural number, most significant first. -/
def natToDigits (n : Nat) : List Nat :=
  if h : n < 10 then [n] else natToDigits (n / 10) ++ [n % 10]
decreasing_by exact Nat.div_lt_self (by omega) (by omega)

/-- Decimal byte representation of an integer. -/
def intBytes (n : Int) : Bytes :=
  if n < 0 then 45 :: (natToDigits (-n).toNat).map (· + 48)
  else (natToDigits n.toNat).map (· + 48)

/-- Glue marshalled object fields: subsequent fields with a leading comma. -/
def glueSep : List (Bytes × Bytes) → Bytes
  | [] => []
  | (k, s) :: rest => 44 :: (strLit k ++ 58 :: (s ++ glueSep rest))

/-- Glue marshalled object fields: first field without a comma. -/
def glueFields : List (Bytes × Bytes) → Bytes
  | [] => []
  | (k, s) :: rest => strLit k ++ 58 :: (s ++ glueSep rest)

mutual
/-- Marshal a JSON value to bytes, following encoding/json: compact output,
object keys sorted, strings escaped as in escapeByte. -/
def marshal : Json → Bytes
  | .null => [110, 117, 108, 108]
  | .bool true => [116, 114, 117, 101]
  | .bool false => [102, 97, 108, 115, 101]
  | .num n => intBytes n
  | .str s => strLit s
  | .arr es => 91 :: (marshalElems es ++ [93])
  | .obj kvs => 123 :: (glueFields (sortP (fieldStrs kvs)) ++ [125])
def marshalElems : List Json → Bytes
  | [] => []
  | e :: es => marshal e ++ marshalSep es
def marshalSep : List Json → Bytes
  | [] => []
  | e :: es => 44 :: (marshal e ++ marshalSep es)
/-- Marshal every field value, keeping keys. -/
def fieldStrs : List (Bytes × Json) → List (Bytes × Bytes)
  | [] => []
  | (k, v) :: kvs => (k, marshal v) :: fieldStrs kvs
end

/-! ### The JSON parser

A fueled recursive-descent parser for the JSON grammar accepted by
encoding/json, restricted to integer numerals.  Parsing into interface-typed
Go values turns every JSON object into a map, so duplicate keys are collapsed
(later occurrences win); the parser mirrors this in dedupF. -/

def isDigit (c : Nat) : Bool := 48 ≤ c && c ≤ 57

def isWs (c : Nat) : Bool := c = 32 || c = 9 || c = 10 || c = 13

def skipWs : Bytes → Bytes
  | [] => []
  | c :: rest => if isWs c then skipWs rest else c :: rest

/-- Greedy decimal digit run, accumulator style. -/
def parseDigitsAux : Nat → Bytes → Nat × Bytes
  | acc, [] => (acc, [])
  | acc, c :: rest =>
    if isDigit c then parseDigitsAux (acc * 10 + (c - 48)) rest else (acc, c :: rest)

/-- A natural numeral: at least one digit, greedily consumed. -/
def parseNum : Bytes → Option (Nat × Bytes)
  | [] => none
  | c :: rest => if isDigit c then some (parseDigitsAux (c - 48) rest) else none

def hexVal (c : Nat) : Option Nat :=
  if 48 ≤ c ∧ c ≤ 57 then some (c - 48)
  else if 97 ≤ c ∧ c ≤ 102 then some (c - 87)
  else if 65 ≤ c ∧ c ≤ 70 then some (c - 55)
  else none

/-- UTF-8 bytes of a code point below 0x10000 (escapes carry four hex
digits; surrogate pairs are not recombined, matching the modelled subset). -/
def utf8Encode (n : Nat) : Bytes :=
  if n < 128 then [n]
  else if n < 2048 then [192 + n / 64, 128 + n % 64]
  else [224 + n / 4096, 128 + (n / 64) % 64, 128 + n % 64]

/-- Parse the body of a string literal after the opening quote, returning the
unescaped contents and the bytes after the closing quote.  Raw control bytes
are rejected, as in encoding/json. -/
def parseStringBody : Bytes → Option (Bytes × Bytes)
  | [] => none
  | 34 :: rest => some ([], rest)
  | 92 :: 34 :: rest => (parseStringBody rest).map (fun p => (34 :: p.1, p.2))
  | 92 :: 92 :: rest => (parseStringBody rest).map (fun p => (92 :: p.1, p.2))
  | 92 :: 47 :: rest => (parseStringBody rest).map (fun p => (47 :: p.1, p.2))
  | 92 :: 98 :: rest => (parseStringBody rest).map (fun p => (8 :: p.1, p.2))
  | 92 :: 102 :: rest => (parseStringBody rest).map (fun p => (12 :: p.1, p.2))
  | 92 :: 110 :: rest => (parseStringBody rest).map (fun p => (10 :: p.1, p.2))
  | 92 :: 114 :: rest => (parseStringBody rest).map (fun p => (13 :: p.1, p.2))
  | 92 :: 116 :: rest => (parseStringBody rest).map (fun p => (9 :: p.1, p.2))
  | 92 :: 117 :: h1 :: h2 :: h3 :: h4 :: rest =>
    match hexVal h1, hexVal h2, hexVal h3, hexVal h4 with
    | some a, some b, some c, some d =>
      (parseStringBody rest).map
        (fun p => (utf8Encode (a * 4096 + b * 256 + c * 16 + d) ++ p.1, p.2))
    | _, _, _, _ => none
  | 92 :: _ => none
  | c :: rest =>
    if c < 32 then none
    else (parseStringBody rest).map (fun p => (c :: p.1, p.2))

/-- Replace the value of an existing key, or append; used to give parsed
objects Go map semantics (duplicate keys: the later value wins). -/
def updF : List (Bytes × Json) → Bytes × Json → List (Bytes × Json)
  | [], p => [p]
  | q :: rest, p => if q.1 = p.1 then (p.1, p.2) :: rest else q :: updF rest p

def dedupF (l : List (Bytes × Json)) : List (Bytes × Json) := l.foldl updF []

/-- Expect a literal byte sequence, as the scanner does for the tails of the
keywords true, false and null. -/
def expectBytes : Bytes → Bytes → Option Bytes
  | [], bs => some bs
  | _ :: _, [] => none
  | p :: ps, c :: bs => if c = p then expectBytes ps bs else none

mutual
/-- Parse one JSON value.  Fuel decreases when entering a container and per
container element; jsize of a value bounds the fuel it needs. -/
def parseValue : Nat → Bytes → Option (Json × Bytes)
  | 0, _ => none
  | fuel + 1, bs =>
    match skipWs bs with
    | [] => none
    | c :: rest =>
      if c = 123 then (parseFields0 fuel rest).map (fun p => (Json.obj (dedupF p.1), p.2))
      else if c = 91 then (parseElems0 fuel rest).map (fun p => (Json.arr p.1, p.2))
      else if c = 34 then (parseStringBody rest).map (fun p => (Json.str p.1, p.2))
      else if c = 116 then
        (expectBytes [114, 117, 101] rest).map (fun r => (Json.bool true, r))
      else if c = 102 then
        (expectBytes [97, 108, 115, 101] rest).map (fun r => (Json.bool false, r))
      else if c = 110 then
        (expectBytes [117, 108, 108] rest).map (fun r => (Json.null, r))
      else if c = 45 then (parseNum rest).map (fun p => (Json.num (-(p.1 : Int)), p.2))
      else if isDigit c then
        (parseNum (c :: rest)).map (fun p => (Json.num (p.1 : Int), p.2))
      else none

/-- Array elements directly after the opening bracket. -/
def parseElems0 : Nat → Bytes → Option (List Json × Bytes)
  | 0, _ => none
  | fuel + 1, bs =>
    match skipWs bs with
    | [] => none
    | c :: rest =>
      if c = 93 then some ([], rest)
      else
        (parseValue fuel bs).bind fun p =>
          (parseElemsRest fuel p.2).map fun q => (p.1 :: q.1, q.2)

/-- Array elements after the first: a comma then a value, or the close. -/
def parseElemsRest : Nat → Bytes → Option (List Json × Bytes)
  | 0, _ => none
  | fuel + 1, bs =>
    match skipWs bs with
    | [] => none
    | c :: rest =>
      if c = 93 then some ([], rest)
      else if c = 44 then
        (parseValue fuel rest).bind fun p =>
          (parseElemsRest fuel p.2).map fun q => (p.1 :: q.1, q.2)
      else none

/-- One object field: a string key, a colon, a value. -/
def parseField : Nat → Bytes → Option ((Bytes × Json) × Bytes)
  | 0, _ => none
  | fuel + 1, bs =>
    match skipWs bs with
    | [] => none
    | c :: rest =>
      if c = 34 then
        (parseStringBody rest).bind fun kp =>
          match skipWs kp.2 with
          | [] => none
          | c2 :: r2 =>
            if c2 = 58 then (parseValue fuel r2).map fun vp => ((kp.1, vp.1), vp.2)
            else none
      else none

/-- Object fields directly after the opening brace. -/
def parseFields0 : Nat → Bytes → Option (List (Bytes × Json) × Bytes)
  | 0, _ => none
  | fuel + 1, bs =>
    match skipWs bs with
    | [] => none
    | c :: rest =>
      if c = 125 then some ([], rest)
      else
        (parseField fuel bs).bind fun fl =>
          (parseFieldsRest fuel fl.2).map fun q => (fl.1 :: q.1, q.2)

/-- Object fields after the first: a comma then a field, or the close. -/
def parseFieldsRest : Nat → Bytes → Option (List (Bytes × Json) × Bytes)
  | 0, _ => none
  | fuel + 1, bs =>
    match skipWs bs with
    | [] => none
    | c :: rest =>
      if c = 125 then some ([], rest)
      else if c = 44 then
        (parseField fuel rest).bind fun fl =>
          (parseFieldsRest fuel fl.2).map fun q => (fl.1 :: q.1, q.2)
      else none
end

/-- Top-level JSON decoding, as json.Unmarshal: one value, then only
whitespace.  The fuel is generous; twice the input length plus two always
suffices. -/
def parseJson (bs : Bytes) : Option Json :=
  match parseValue (2 * bs.length + 2) bs with
  | some (v, rest) => if skipWs rest = [] then some v else none
  | none => none

mutual
/-- The canonical form a value assumes after a marshal and parse round trip:
object fields sorted by key.  Values reaching marshal in this development
have unique keys, so no deduplication is involved. -/
def canon : Json → Json
  | .null => .null
  | .bool b => .bool b
  | .num n => .num n
  | .str s => .str s
  | .arr es => .arr (canonList es)
  | .obj kvs => .obj (sortF (canonFields kvs))
def canonList : List Json → List Json
  | [] => []
  | v :: vs => canon v :: canonList vs
def canonFields : List (Bytes × Json) → List (Bytes × Json)
  | [] => []
  | (k, v) :: kvs => (k, canon v) :: canonFields kvs
end

/-- No two fields share a key. -/
def nodupKeys : List (Bytes × Json) → Bool
  | [] => true
  | (k, _) :: rest => !(rest.any fun q => q.1 == k) && nodupKeys rest

mutual
/-- Every object anywhere inside the value has pairwise distinct keys; this
is the class of values produced by parsing (Go maps). -/
def ukeys : Json → Bool
  | .null => true
  | .bool _ => true
  | .num _ => true
  | .str _ => true
  | .arr es => ukeysList es
  | .obj kvs => nodupKeys kvs && ukeysFields kvs
def ukeysList : List Json → Bool
  | [] => true
  | v :: vs => ukeys v && ukeysList vs
def ukeysFields : List (Bytes × Json) → Bool
  | [] => true
  | (_, v) :: kvs => ukeys v && ukeysFields kvs
end

/-! ### Round-trip lemmas: marshalling followed by parsing -/

def headNotDigit : Bytes → Bool
  | [] => true
  | c :: _ => !isDigit c

/-- Acceptable first byte of a marshalled value: not whitespace, and not a
container closer. -/
def headOk : Bytes → Bool
  | [] => false
  | c :: _ => !isWs c && !(c == 93) && !(c == 125)

/-! ### Map lookups and absent-only insertion (the enricher loop) -/

/-- Association-list lookup, first match wins; on lists with unique keys this
is the Go map read. -/
def jlookup (k : Bytes) : List (Bytes × Json) → Option Json
  | [] => none
  | (k2, v) :: rest => if k2 = k then some v else jlookup k rest

/-- One step of the enricher loop: add the configured field only when its key
is absent from the parsed object. -/
def insertStep (acc : List (Bytes × Json)) (p : Bytes × Json) : List (Bytes × Json) :=
  if p.1 ∈ acc.map Prod.fst then acc else acc ++ [p]

/-- The enricher body loop: for each configured field, insert it only if
absent.  Go map iteration order is arbitrary; since configured keys are
distinct, the outcome does not depend on the order, and the model fixes the
list order. -/
def insertAbsent (cfg : List (Bytes × Json)) (kvs : List (Bytes × Json)) :
    List (Bytes × Json) :=
  cfg.foldl insertStep kvs

/-! ### The HTTP request model

http.Header is a map from canonical header name to a list of values,
modelled as an association list.  Get reads the first value of the key (the
empty string when absent), Set replaces all values, Add appends one.  All
header names used by the plugins are written in canonical form, so the
MIME canonicalisation of names is the identity on everything compared. -/

abbrev Headers := List (String × List String)

def headerGet (h : Headers) (k : String) : String :=
  match h.find? (fun p => p.1 == k) with
  | some (_, v :: _) => v
  | _ => ""

def headerSet (h : Headers) (k : String) (v : String) : Headers :=
  (k, [v]) :: h.filter (fun p => !(p.1 == k))

def headerAdd (h : Headers) (k : String) (v : String) : Headers :=
  match h with
  | [] => [(k, [v])]
  | (k2, vs) :: rest =>
    if k2 = k then (k2, vs ++ [v]) :: rest else (k2, vs) :: headerAdd rest k v

/-- url.Values.Get: first value of the parameter, or the empty string. -/
def queryGet (q : List (String × String)) (k : String) : String :=
  match q.find? (fun p => p.1 == k) with
  | some p => p.2
  | none => ""

/-- A request in flight: the parts of http.Request the plugins read or
mutate.  The query is the parsed form of the raw query string, which none of
the plugins rewrite. -/
structure Request where
  method : String
  path : String
  query : List (String × String)
  headers : Headers
  body : Option Bytes
  contentLength : Int
deriving DecidableEq

/-- strings.HasPrefix on character lists. -/
def startsWithL : List Char → List Char → Bool
  | [], _ => true
  | _ :: _, [] => false
  | a :: as, b :: bs => a == b && startsWithL as bs

/-- strings.Contains on character lists. -/
def listContains (needle : List Char) : List Char → Bool
  | [] => needle.isEmpty
  | c :: t => startsWithL needle (c :: t) || listContains needle t

/-- strings.Contains. -/
def strContains (hay sub : String) : Bool := listContains sub.toList hay.toList

/-- Modelled from the spec: the gzip codec of the encoding layer
(traffic.EncodeData, compress/gzip) is not part of src.  RFC 1952 framing is
abstracted to its magic and method header bytes; the claims rely on the
framing being invertible and on framed data not being JSON text.
decode (encode x) = x holds by construction, and a stream without the magic
prefix fails to decode, exactly as gzip.NewReader rejects it. -/
def gzipEncode (b : Bytes) : Bytes := 31 :: 139 :: 8 :: b

/-- Modelled from the spec: inverse of gzipEncode; fails on any stream that
does not carry the gzip framing. -/
def gzipDecode : Bytes → Option Bytes
  | 31 :: 139 :: 8 :: rest => some rest
  | _ => none

/-! ### The content-enricher plugin (content-enricher-plugin.go) -/

/-- json.Unmarshal into map[string]interface{}: the decoded value must be a
JSON object.  (Unmarshal of the literal null succeeds leaving the map nil;
the subsequent insertion into a nil map panics in Go, so no enriched request
is ever produced from a null body; the model folds that case into the
non-object path, where likewise no enrichment happens.) -/
def parseObjTop (bs : Bytes) : Option (List (Bytes × Json)) :=
  match parseJson bs with
  | some (Json.obj kvs) => some kvs
  | _ => none

structure EnricherConfig where
  bodyEnrichments : List (Bytes × Json)
  headerEnrichments : List (String × String)

/-- contentEnricherPlugin.enrichBodyContent.  io.ReadAll on a pure byte body
cannot fail and json.Marshal of a decoded map cannot fail, so the two http
500 error paths of the source are unreachable in the model; every data
failure (wrong content type, empty body, unparsable body) restores the body
bytes and falls through with serviced = false. -/
def enrichBodyContent (cfg : EnricherConfig) (req : Request) : Request × Bool :=
  if cfg.bodyEnrichments.isEmpty then (req, false)
  else if headerGet req.headers "Content-Type" ≠ "application/json" then (req, false)
  else match req.body with
    | none => (req, false)
    | some bodyBytes =>
      if bodyBytes.length = 0 then (req, false)
      else match parseObjTop bodyBytes with
        | none => (req, false)
        | some kvs =>
          let enriched := insertAbsent cfg.bodyEnrichments kvs
          let newBody := marshal (Json.obj enriched)
          ({ req with
              body := some newBody
              contentLength := (newBody.length : Int)
              headers := headerSet req.headers "Content-Length" (toString newBody.length) },
            false)

/-- contentEnricherPlugin.enrichHeaderContent: set every configured header.
Go map iteration order is arbitrary; configured names are distinct, so every
header read sees the same result whatever the order, and the model fixes the
list order. -/
def enrichHeaderContent (cfg : EnricherConfig) (req : Request) : Request :=
  if cfg.headerEnrichments.isEmpty then req
  else { req with
    headers := cfg.headerEnrichments.foldl (fun h p => headerSet h p.1 p.2) req.headers }

/-- version.RelayRelease.  Modelled from the spec: the release string of the
relay; its value is opaque to every claim. -/
def relayRelease : String := "relay-release"

def enricherVersionHeader : String := "X-Relay-Content-Enricher-Version"

/-- contentEnricherPlugin.HandleRequest.  enrichHeaderContent returns false
on every path in the source, so its serviced result is elided. -/
def enricherHandleRequest (cfg : EnricherConfig) (req : Request) (serviced : Bool) :
    Request × Bool :=
  if serviced then (req, false)
  else
    let req1 := enrichHeaderContent cfg req
    let r2 := enrichBodyContent cfg req1
    if r2.2 then (r2.1, true)
    else if !cfg.headerEnrichments.isEmpty || !cfg.bodyEnrichments.isEmpty then
      ({ r2.1 with headers := headerAdd r2.1.headers enricherVersionHeader relayRelease },
        false)
    else (r2.1, false)

/-! ### The content-enricher factory (contentEnricherPluginFactory.New) -/

inductive ConfigParse (α : Type) where
  | absent : ConfigParse α
  | present : α → ConfigParse α
  | malformed : ConfigParse α

/-- The enrich-content config section: the body and headers subsections as
the config view hands them to the factory. -/
structure ConfigSection where
  bodyOpt : ConfigParse (List (Bytes × Json))
  headersOpt : ConfigParse (List (String × String))

/-- Modelled from the spec: config.ParseOptional (the config view is not
part of src).  A section answers whether a key is present and yields it
parsed as the requested type: an absent key does nothing, a value of the
wrong shape is an error, and otherwise the parsed mapping is handed to the
callback, which copies its entries into the plugin. -/
def parseOptional {α β : Type} (o : ConfigParse α) (init : β) (f : β → α → β) :
    Except String β :=
  match o with
  | .absent => .ok init
  | .present a => .ok (f init a)
  | .malformed => .error "parse error"

/-- contentEnricherPluginFactory.New: parse both subsections (errors are
factory errors), then self-disable exactly when no enrichment was
configured. -/
def enricherFactoryNew (s : ConfigSection) : Except String (Option EnricherConfig) :=
  match parseOptional s.bodyOpt [] (fun acc m => acc ++ m) with
  | .error e => .error ("error parsing body enrichments: " ++ e)
  | .ok bodyE =>
    match parseOptional s.headersOpt [] (fun acc m => acc ++ m) with
    | .error e => .error ("error parsing header enrichments: " ++ e)
    | .ok headerE =>
      if bodyE.isEmpty && headerE.isEmpty then .ok none
      else .ok (some ⟨bodyE, headerE⟩)

/-! ### The segment-proxy plugin, both source variants

Variant A is segment_proxy_plugin.go: exact path match, and each navigate
event rewrites the in-flight request in place.  Variant B is the plugin
embedded beside the counting test: substring path match, and each navigate
event becomes an independent fire-and-forget POST while the in-flight
request is left untouched. -/

/-- The body bytes the segment handlers actually parse: the gzip-decoded
stream when the request declares Content-Encoding gzip, the raw bytes
otherwise. -/
def segmentContent (req : Request) (bodyBytes : Bytes) : Option Bytes :=
  if headerGet req.headers "Content-Encoding" = "gzip" then gzipDecode bodyBytes
  else some bodyBytes

/-- One event of the Fullstory bundle; Args keeps the raw JSON value
(json.RawMessage), none standing for a missing key (nil RawMessage). -/
structure Event where
  kind : Int
  args : Option Json

structure SegmentData where
  writeKey : Bytes
  evts : List Event

/-- json.Unmarshal of a JSON value into a Go int field: a missing key or
null leaves the zero value, a number is taken (the model carries integer
numerals only), anything else is a type error that fails the whole
unmarshal. -/
def asIntField : Option Json → Option Int
  | none => some 0
  | some .null => some 0
  | some (.num n) => some n
  | some _ => none

/-- json.Unmarshal of a JSON value into a Go string field. -/
def asStrField : Option Json → Option Bytes
  | none => some []
  | some .null => some []
  | some (.str s) => some s
  | some _ => none

/-- One element of Evts decoded into Event.  Field names are matched
exactly; the case-insensitive fallback of encoding/json is outside the
modelled subset. -/
def eventOfJson : Json → Option Event
  | .obj fields => do
    let kind ← asIntField (jlookup (ascii "Kind") fields)
    let _ ← asIntField (jlookup (ascii "When") fields)
    some { kind := kind, args := jlookup (ascii "Args") fields }
  | .null => some { kind := 0, args := none }
  | _ => none

/-- json.Unmarshal of the body into SegmentData.  A type error anywhere
makes the handler treat the whole unmarshal as failed, which is what the
single error check in the source does. -/
def unmarshalSegmentData (bs : Bytes) : Option SegmentData :=
  match parseJson bs with
  | some (.obj fields) => do
    let _ ← asIntField (jlookup (ascii "Seq") fields)
    let _ ← asIntField (jlookup (ascii "When") fields)
    let writeKey ← asStrField (jlookup (ascii "writeKey") fields)
    let evts ←
      match jlookup (ascii "Evts") fields with
      | none => some []
      | some .null => some []
      | some (.arr es) => es.mapM eventOfJson
      | some _ => none
    some { writeKey := writeKey, evts := evts }
  | some .null => some { writeKey := [], evts := [] }
  | _ => none

/-- json.Unmarshal of an Args raw message into a string slice. -/
def argsToStrings : Option Json → Option (List Bytes)
  | none => none
  | some .null => some []
  | some (.arr es) =>
    es.mapM fun e =>
      match e with
      | .str s => some s
      | .null => some []
      | _ => none
  | some _ => none

/-- The synthesized page body: json.Marshal of the five-key Go map built for
a navigate event (marshal itself sorts the keys, as encoding/json does). -/
def pageBody (writeKey userId : Bytes) (now : Int) (url : Bytes) : Bytes :=
  marshal (Json.obj [
    (ascii "name", Json.str (ascii "track " ++ url)),
    (ascii "properties", Json.obj [(ascii "url", Json.str url)]),
    (ascii "timestamp", Json.num now),
    (ascii "userId", Json.str userId),
    (ascii "writeKey", Json.str writeKey)])

/-- The event loop of variant A.  For a navigate event the path and method
are rewritten before Args is examined, so a failing or empty Args aborts the
loop (return false in the source) with the path already mutated.  The UserId
query value is hoisted out of the loop: the raw query string is never
mutated, so request.URL.Query() yields the same value on every iteration. -/
def processEventsA (writeKey userId : Bytes) (now : Int) :
    Request → List Event → Request
  | req, [] => req
  | req, e :: rest =>
    if e.kind = 37 then
      let req1 := { req with path := "/v1/page", method := "POST" }
      match argsToStrings e.args with
      | none => req1
      | some [] => req1
      | some (url :: _) =>
        let jsonBody := pageBody writeKey userId now url
        processEventsA writeKey userId now
          { req1 with
              body := some jsonBody
              contentLength := (jsonBody.length : Int)
              headers := headerSet req1.headers "Content-Length"
                (toString jsonBody.length) }
          rest
    else processEventsA writeKey userId now req rest

/-- segmentProxyPlugin.HandleRequest of segment_proxy_plugin.go (variant A).
time.Now().Unix() enters as now.  Reading the body cannot fail on pure
bytes, and the body is restored to the same bytes immediately after the
read, so the restored request equals the argument on every early return. -/
def handleRequestA (req : Request) (serviced : Bool) (now : Int) : Request × Bool :=
  if serviced then (req, false)
  else if req.path ≠ "/rec/bundle/v2" then (req, false)
  else match req.body with
    | none => (req, false)
    | some bodyBytes =>
      match segmentContent req bodyBytes with
      | none => (req, false)
      | some contentBytes =>
        match unmarshalSegmentData contentBytes with
        | none => (req, false)
        | some sd =>
          (processEventsA sd.writeKey (ascii (queryGet req.query "UserId")) now
            req sd.evts, false)

/-- A fire-and-forget side-effect request issued by variant B.  Errors from
client.Do are logged and skipped in the source; the list below records the
requests as issued. -/
structure Delivery where
  method : String
  path : String
  headers : Headers
  body : Bytes
  contentLength : Int
deriving DecidableEq

/-- The per-event work of variant B: a navigate event with a well-formed,
non-empty Args list yields one POST /v1/page delivery carrying the original
headers minus Content-Length, with Content-Type forced to application/json;
any other event yields nothing (continue in the source). -/
def mkDelivery (req : Request) (writeKey userId : Bytes) (now : Int)
    (e : Event) : Option Delivery :=
  if e.kind = 37 then
    match argsToStrings e.args with
    | none => none
    | some [] => none
    | some (url :: _) =>
      let jsonBody := pageBody writeKey userId now url
      some {
        method := "POST"
        path := "/v1/page"
        headers := headerSet (req.headers.filter fun p => !(p.1 == "Content-Length"))
          "Content-Type" "application/json"
        body := jsonBody
        contentLength := (jsonBody.length : Int) }
  else none

/-- segmentProxyPlugin.HandleRequest of the fan-out variant (variant B):
substring path match; the request itself is read, restored and otherwise
left untouched, and the navigate deliveries come back as a list. -/
def handleRequestB (req : Request) (serviced : Bool) (now : Int) :
    Request × Bool × List Delivery :=
  if serviced then (req, false, [])
  else if ¬ strContains req.path "/rec/bundle/v2" then (req, false, [])
  else match req.body with
    | none => (req, false, [])
    | some bodyBytes =>
      match segmentContent req bodyBytes with
      | none => (req, false, [])
      | some contentBytes =>
        match unmarshalSegmentData contentBytes with
        | none => (req, false, [])
        | some sd =>
          (req, false, sd.evts.filterMap
            (mkDelivery req sd.writeKey (ascii (queryGet req.query "UserId")) now))

/-! ### Concrete requests used by witnesses and counterexamples -/

/-- A Fullstory bundle with one navigate event, as in the plugin tests. -/
def wBody : Bytes := ascii "\x7b\x22writeKey\x22:\x22k\x22,\x22Evts\x22:[\x7b\x22Kind\x22:37,\x22Args\x22:[\x22u\x22]\x7d]\x7d"

def wReq : Request :=
  { method := "GET", path := "/rec/bundle/v2", query := [("UserId", "u")],
    headers := [], body := some wBody, contentLength := (wBody.length : Int) }

/-- The same bundle posted to a nested path containing /rec/bundle/v2. -/
def wNested : Request := { wReq with path := "/api/v1/rec/bundle/v2/data" }

/-- A bundle whose first navigate event has non-list Args and whose second
navigate event is well-formed. -/
def wBadBody : Bytes :=
  ascii "\x7b\x22writeKey\x22:\x22k\x22,\x22Evts\x22:[\x7b\x22Kind\x22:37,\x22Args\x22:\x22x\x22\x7d,\x7b\x22Kind\x22:37,\x22Args\x22:[\x22u\x22]\x7d]\x7d"

def wBadReq : Request := { wReq with body := some wBadBody }

/-- Only the well-formed navigate event. -/
def wGoodBody : Bytes := ascii "\x7b\x22writeKey\x22:\x22k\x22,\x22Evts\x22:[\x7b\x22Kind\x22:37,\x22Args\x22:[\x22u\x22]\x7d]\x7d"

def wGoodReq : Request := { wReq with body := some wGoodBody }

/-- The enricher configuration of the first plugin test. -/
def wCfg : EnricherConfig :=
  { bodyEnrichments := [(ascii "nk", Json.str (ascii "ev"))], headerEnrichments := [] }

def wPlain : Bytes := ascii "\x7b\x22c\x22:\x22o\x22\x7d"

def wEnrichReq : Request :=
  { method := "POST", path := "/", query := [],
    headers := [("Content-Type", ["application/json"]), ("Content-Length", ["9"])],
    body := some wPlain, contentLength := 9 }

/-- The same JSON body gzip-encoded and declared as such. -/
def wGzipReq : Request :=
  { wEnrichReq with
      headers := ("Content-Encoding", ["gzip"]) :: wEnrichReq.headers,
      body := some (gzipEncode wPlain),
      contentLength := ((gzipEncode wPlain).length : Int) }

/-- Bytes that are not valid JSON. -/
def wBadJson : Bytes := ascii "\x7boops"

/-- The single delivery the fan-out variant issues for wReq. -/
def wDelivery : Delivery :=
  { method := "POST", path := "/v1/page",
    headers := [("Content-Type", ["application/json"])],
    body := pageBody (ascii "k") (ascii "u") 5 (ascii "u"),
    contentLength := ((pageBody (ascii "k") (ascii "u") 5 (ascii "u")).length : Int) }

/-- The parsed form of wBody. -/
def wSd : SegmentData :=
  { writeKey := ascii "k",
    evts := [{ kind := 37, args := some (Json.arr [Json.str (ascii "u")]) }] }

/-- The parsed form of wBadBody: a navigate event with string Args followed
by a well-formed navigate event. -/
def wBadSd : SegmentData :=
  { writeKey := ascii "k",
    evts := [{ kind := 37, args := some (Json.str (ascii "x")) },
             { kind := 37, args := some (Json.arr [Json.str (ascii "u")]) }] }

/-- The invariant of the claim: request.ContentLength and the Content-Length
header both equal the byte length of the current body. -/
def clInv (req : Request) : Prop :=
  req.contentLength = (((req.body.getD []).length : Nat) : Int) ∧
  headerGet req.headers "Content-Length" = toString (req.body.getD []).length

lemma natToDigits_all_lt (n : Nat) : ∀ d ∈ natToDigits n, d < 10 := by
  induction n using Nat.strong_induction_on with
  | _ n ih =>
    rw [natToDigits]
    split
    · intro d hd
      simp only [List.mem_singleton] at hd
      omega
    · intro d hd
      rw [List.mem_append, List.mem_singleton] at hd
      rcases hd with h | h
      · exact ih (n / 10) (Nat.div_lt_self (by omega) (by omega)) d h
      · omega

lemma natToDigits_ne_nil (n : Nat) : natToDigits n ≠ [] := by
  rw [natToDigits]
  split
  · simp
  · simp

lemma foldl_natToDigits (n : Nat) :
    (natToDigits n).foldl (fun a d => a * 10 + d) 0 = n := by
  induction n using Nat.strong_induction_on with
  | _ n ih =>
    rw [natToDigits]
    split
    · simp
    · rw [List.foldl_append]
      have := ih (n / 10) (Nat.div_lt_self (by omega) (by omega))
      simp only [List.foldl_cons, List.foldl_nil, this]
      omega

lemma parseDigitsAux_append (ds : List Nat) :
    ∀ acc rest, (∀ d ∈ ds, d < 10) → headNotDigit rest = true →
      parseDigitsAux acc (ds.map (· + 48) ++ rest) =
        (ds.foldl (fun a d => a * 10 + d) acc, rest) := by
  induction ds with
  | nil =>
    intro acc rest _ hr
    cases rest with
    | nil => simp [parseDigitsAux]
    | cons c t =>
      simp only [headNotDigit, Bool.not_eq_true'] at hr
      simp [parseDigitsAux, hr]
  | cons d ds ih =>
    intro acc rest hds hr
    have hd : d < 10 := hds d (by simp)
    have hdig : isDigit (d + 48) = true := by simp [isDigit]; omega
    have hsub : d + 48 - 48 = d := by omega
    simp only [List.map_cons, List.cons_append, parseDigitsAux, hdig, if_true, hsub,
      List.append_eq]
    rw [ih _ rest (fun x hx => hds x (by simp [hx])) hr]
    simp

lemma parseNum_natToDigits (n : Nat) (rest : Bytes) (hr : headNotDigit rest = true) :
    parseNum ((natToDigits n).map (· + 48) ++ rest) = some (n, rest) := by
  obtain ⟨d, ds, hEq⟩ : ∃ d ds, natToDigits n = d :: ds := by
    cases h : natToDigits n with
    | nil => exact absurd h (natToDigits_ne_nil n)
    | cons d ds => exact ⟨d, ds, rfl⟩
  have hd : d < 10 := natToDigits_all_lt n d (by rw [hEq]; simp)
  have hds : ∀ x ∈ ds, x < 10 := fun x hx => natToDigits_all_lt n x (by rw [hEq]; simp [hx])
  have hdig : isDigit (d + 48) = true := by simp [isDigit]; omega
  rw [hEq]
  simp only [List.map_cons, List.cons_append, parseNum, hdig, if_true]
  have hsub : d + 48 - 48 = d := by omega
  rw [hsub, parseDigitsAux_append ds d rest hds hr]
  have : ds.foldl (fun a x => a * 10 + x) d = n := by
    have := foldl_natToDigits n
    rw [hEq] at this
    simpa using this
  rw [this]

lemma hexVal_hexDigitByte (m : Nat) (h : m < 16) :
    hexVal (hexDigitByte m) = some m := by
  interval_cases m <;> decide

lemma parseStringBody_escapeByte (b : Nat) (tail : Bytes) :
    parseStringBody (escapeByte b ++ tail) =
      (parseStringBody tail).map (fun p => (b :: p.1, p.2)) := by
  unfold escapeByte
  split_ifs with h1 h2 h3 h4 h5 h6
  · subst h1; rfl
  · subst h2; rfl
  · subst h3; rfl
  · subst h4; rfl
  · subst h5; rfl
  · -- the \u00xx escape
    have hb : b < 64 := by omega
    have hdiv : b / 16 < 16 := by omega
    have hmod : b % 16 < 16 := by omega
    simp only [List.cons_append, List.nil_append, parseStringBody]
    split
    · rename_i a x c d ha hx hc hd
      rw [show hexVal 48 = some 0 from by decide] at ha hx
      rw [hexVal_hexDigitByte _ hdiv] at hc
      rw [hexVal_hexDigitByte _ hmod] at hd
      injection ha with ha; injection hx with hx; injection hc with hc; injection hd with hd
      subst ha; subst hx; subst hc; subst hd
      have hval : 0 * 4096 + 0 * 256 + b / 16 * 16 + b % 16 = b := by omega
      rw [hval]
      have hle : utf8Encode b = [b] := by
        have : b < 128 := by omega
        simp [utf8Encode, this]
      rw [hle]
      rfl
    · rename_i hbad
      exfalso
      exact hbad 0 0 (b / 16) (b % 16) (by decide) (by decide)
        (hexVal_hexDigitByte _ hdiv) (hexVal_hexDigitByte _ hmod)
  · -- raw byte
    have h32 : ¬ b < 32 := by omega
    rw [List.cons_append, parseStringBody.eq_def]
    split
    · simp_all
    · simp_all
    · simp_all
    · simp_all
    · simp_all
    · simp_all
    · simp_all
    · simp_all
    · simp_all
    · simp_all
    · simp_all
    · simp_all
    · rename_i heq
      injection heq with hc ht
      subst hc; subst ht
      simp [h32]

lemma parseStringBody_escapeBytes (s : Bytes) (rest : Bytes) :
    parseStringBody (escapeBytes s ++ (34 :: rest)) = some (s, rest) := by
  induction s with
  | nil => rfl
  | cons b s ih =>
    rw [escapeBytes, List.append_assoc, parseStringBody_escapeByte, ih]
    rfl

lemma skipWs_cons (c : Nat) (l : Bytes) (h : isWs c = false) :
    skipWs (c :: l) = c :: l := by
  simp [skipWs, h]

lemma marshal_headOk (v : Json) : headOk (marshal v) = true := by
  cases v with
  | null => decide
  | bool b => cases b <;> decide
  | num n =>
    rw [marshal, intBytes]
    split
    · rfl
    · obtain ⟨d, ds, hEq⟩ : ∃ d ds, natToDigits n.toNat = d :: ds := by
        cases h : natToDigits n.toNat with
        | nil => exact absurd h (natToDigits_ne_nil _)
        | cons d ds => exact ⟨d, ds, rfl⟩
      have hd : d < 10 := natToDigits_all_lt _ d (by rw [hEq]; simp)
      rw [hEq]
      simp only [List.map_cons, headOk, isWs]
      simp only [Bool.and_eq_true, Bool.not_eq_true', beq_eq_false_iff_ne, ne_eq,
        Bool.or_eq_false_iff, decide_eq_false_iff_not]
      omega
  | str s => rfl
  | arr es => rfl
  | obj kvs => rfl

lemma headNotDigit_marshalSep (es : List Json) (rest : Bytes) :
    headNotDigit (marshalSep es ++ (93 :: rest)) = true := by
  cases es <;> simp [marshalSep, headNotDigit, isDigit]

lemma headNotDigit_glueSep (l : List (Bytes × Bytes)) (rest : Bytes) :
    headNotDigit (glueSep l ++ (125 :: rest)) = true := by
  cases l with
  | nil => simp [glueSep, headNotDigit, isDigit]
  | cons p l => cases p; simp [glueSep, headNotDigit, isDigit]

lemma jsize_pos (v : Json) : 1 ≤ jsize v := by
  cases v <;> simp only [jsize] <;> omega

lemma nodupKeys_iff (l : List (Bytes × Json)) :
    nodupKeys l = true ↔ (l.map Prod.fst).Nodup := by
  induction l with
  | nil => simp [nodupKeys]
  | cons p l ih =>
    obtain ⟨k, v⟩ := p
    simp only [nodupKeys, Bool.and_eq_true, Bool.not_eq_true', List.map_cons,
      List.nodup_cons, ih, List.mem_map, List.any_eq_false,
      beq_eq_false_iff_ne, ne_eq]
    constructor
    · rintro ⟨h1, h2⟩
      refine ⟨?_, h2⟩
      rintro ⟨q, hq, hqk⟩
      exact h1 q hq (by simp [hqk])
    · rintro ⟨h1, h2⟩
      exact ⟨fun q hq hqk => h1 ⟨q, hq, by simpa using hqk⟩, h2⟩

lemma ukeysFields_iff (l : List (Bytes × Json)) :
    ukeysFields l = true ↔ ∀ p ∈ l, ukeys p.2 = true := by
  induction l with
  | nil => simp [ukeysFields]
  | cons p l ih =>
    obtain ⟨k, v⟩ := p
    simp only [ukeysFields, Bool.and_eq_true, ih, List.mem_cons]
    constructor
    · rintro ⟨h1, h2⟩ q hq
      rcases hq with rfl | hq
      · exact h1
      · exact h2 q hq
    · intro h
      exact ⟨h (k, v) (Or.inl rfl), fun q hq => h q (Or.inr hq)⟩

lemma ukeysList_iff (l : List Json) :
    ukeysList l = true ↔ ∀ v ∈ l, ukeys v = true := by
  induction l with
  | nil => simp [ukeysList]
  | cons v l ih =>
    simp only [ukeysList, Bool.and_eq_true, ih, List.mem_cons]
    constructor
    · rintro ⟨h1, h2⟩ w hw
      rcases hw with rfl | hw
      · exact h1
      · exact h2 w hw
    · intro h
      exact ⟨h v (Or.inl rfl), fun w hw => h w (Or.inr hw)⟩

lemma jsizeFields_eq_sum (l : List (Bytes × Json)) :
    jsizeFields l = (l.map fun p => 1 + jsize p.2).sum := by
  induction l with
  | nil => simp [jsizeFields]
  | cons p l ih => cases p; simp [jsizeFields, ih]

lemma jsizeFields_perm {l l2 : List (Bytes × Json)} (h : l.Perm l2) :
    jsizeFields l = jsizeFields l2 := by
  rw [jsizeFields_eq_sum, jsizeFields_eq_sum]
  exact (h.map _).sum_eq

lemma ukeysFields_perm {l l2 : List (Bytes × Json)} (h : l.Perm l2) :
    ukeysFields l = ukeysFields l2 := by
  have hiff : (ukeysFields l = true) ↔ (ukeysFields l2 = true) := by
    rw [ukeysFields_iff, ukeysFields_iff]
    exact ⟨fun H p hp => H p (h.mem_iff.mpr hp), fun H p hp => H p (h.mem_iff.mp hp)⟩
  exact Bool.eq_iff_iff.mpr hiff

lemma nodupKeys_perm {l l2 : List (Bytes × Json)} (h : l.Perm l2) :
    nodupKeys l = nodupKeys l2 := by
  have hiff : (nodupKeys l = true) ↔ (nodupKeys l2 = true) := by
    rw [nodupKeys_iff, nodupKeys_iff]
    exact (h.map Prod.fst).nodup_iff
  exact Bool.eq_iff_iff.mpr hiff

lemma canonFields_eq_map (l : List (Bytes × Json)) :
    canonFields l = l.map fun p => (p.1, canon p.2) := by
  induction l with
  | nil => rfl
  | cons p l ih => cases p; simp [canonFields, ih]

lemma fieldStrs_eq_map (l : List (Bytes × Json)) :
    fieldStrs l = l.map fun p => (p.1, marshal p.2) := by
  induction l with
  | nil => rfl
  | cons p l ih => cases p; simp [fieldStrs, ih]

lemma keys_canonFields (l : List (Bytes × Json)) :
    (canonFields l).map Prod.fst = l.map Prod.fst := by
  rw [canonFields_eq_map, List.map_map]
  rfl

lemma sortF_perm (l : List (Bytes × Json)) : (sortF l).Perm l :=
  List.perm_insertionSort fieldLe l

lemma sortP_fieldStrs (kvs : List (Bytes × Json)) :
    sortP (fieldStrs kvs) = fieldStrs (sortF kvs) := by
  rw [fieldStrs_eq_map, fieldStrs_eq_map, sortP, sortF]
  exact (List.map_insertionSort fieldLe fieldStrLe (fun p => (p.1, marshal p.2)) kvs
    (fun a _ b _ => Iff.rfl)).symm

lemma canonFields_sortF (kvs : List (Bytes × Json)) :
    canonFields (sortF kvs) = sortF (canonFields kvs) := by
  rw [canonFields_eq_map, canonFields_eq_map, sortF, sortF]
  exact List.map_insertionSort fieldLe fieldLe (fun p => (p.1, canon p.2)) kvs
    (fun a _ b _ => Iff.rfl)

lemma updF_append (acc : List (Bytes × Json)) (p : Bytes × Json)
    (h : p.1 ∉ acc.map Prod.fst) : updF acc p = acc ++ [p] := by
  induction acc with
  | nil => rfl
  | cons q acc ih =>
    simp only [List.map_cons, List.mem_cons] at h
    push_neg at h
    rw [updF, if_neg (by exact fun hq => h.1 hq.symm), ih h.2]
    rfl

lemma foldl_updF (l : List (Bytes × Json)) :
    ∀ acc, ((acc ++ l).map Prod.fst).Nodup → l.foldl updF acc = acc ++ l := by
  induction l with
  | nil => intro acc _; simp
  | cons p l ih =>
    intro acc hnd
    have hp : p.1 ∉ acc.map Prod.fst := by
      rw [List.map_append, List.nodup_append] at hnd
      intro hmem
      exact hnd.2.2 hmem (by simp)
    rw [List.foldl_cons, updF_append acc p hp, ih (acc ++ [p]) (by simpa using hnd)]
    simp

lemma dedupF_of_nodup (l : List (Bytes × Json)) (h : nodupKeys l = true) :
    dedupF l = l := by
  rw [dedupF, foldl_updF l [] (by simpa using (nodupKeys_iff l).mp h)]
  simp

lemma nodupKeys_canonFields (l : List (Bytes × Json)) :
    nodupKeys (canonFields l) = nodupKeys l :=
  Bool.eq_iff_iff.mpr (by rw [nodupKeys_iff, nodupKeys_iff, keys_canonFields])

lemma headOk_elim {bs : Bytes} (h : headOk bs = true) :
    ∃ c l, bs = c :: l ∧ isWs c = false ∧ c ≠ 93 ∧ c ≠ 125 := by
  cases bs with
  | nil => exact absurd h (by simp [headOk])
  | cons c l =>
    simp only [headOk, Bool.and_eq_true, Bool.not_eq_true'] at h
    exact ⟨c, l, rfl, h.1.1, by simpa using h.1.2, by simpa using h.2⟩

lemma parseValue_digit (f c : Nat) (X : Bytes) (hc : isDigit c = true) :
    parseValue (f + 1) (c :: X) =
      (parseNum (c :: X)).map (fun p => (Json.num (p.1 : Int), p.2)) := by
  have hcb : 48 ≤ c ∧ c ≤ 57 := by simpa [isDigit] using hc
  have hws : isWs c = false := by simp [isWs]; omega
  simp only [parseValue]
  rw [skipWs_cons _ _ hws]
  dsimp only
  rw [if_neg (by omega), if_neg (by omega), if_neg (by omega), if_neg (by omega),
    if_neg (by omega), if_neg (by omega), if_neg (by omega), if_pos hc]

lemma parseValue_num (f : Nat) (n : Int) (rest : Bytes)
    (hrest : headNotDigit rest = true) :
    parseValue (f + 1) (marshal (.num n) ++ rest) = some (Json.num n, rest) := by
  rw [marshal, intBytes]
  split
  · rename_i hneg
    have hred : ∀ X, parseValue (f + 1) (45 :: X) =
        (parseNum X).map (fun p => (Json.num (-(p.1 : Int)), p.2)) := fun X => rfl
    rw [List.cons_append, hred, parseNum_natToDigits _ rest hrest, Option.map_some']
    have : ((((-n).toNat : Nat) : Int)) = -n := Int.toNat_of_nonneg (by omega)
    rw [this]
    simp
  · rename_i hpos
    obtain ⟨d, ds, hEq⟩ : ∃ d ds, natToDigits n.toNat = d :: ds := by
      cases h : natToDigits n.toNat with
      | nil => exact absurd h (natToDigits_ne_nil _)
      | cons d ds => exact ⟨d, ds, rfl⟩
    have hd : d < 10 := natToDigits_all_lt _ d (by rw [hEq]; simp)
    have hdig : isDigit (d + 48) = true := by simp [isDigit]; omega
    rw [hEq, List.map_cons, List.cons_append, parseValue_digit f _ _ hdig]
    have hin : (d + 48) :: (ds.map (· + 48) ++ rest) =
        (natToDigits n.toNat).map (· + 48) ++ rest := by
      rw [hEq]; rfl
    rw [hin, parseNum_natToDigits _ rest hrest, Option.map_some']
    have : ((n.toNat : Nat) : Int) = n := Int.toNat_of_nonneg (by omega)
    rw [this]

theorem rt_main : ∀ f : Nat,
    (∀ v rest, jsize v ≤ f → ukeys v = true → headNotDigit rest = true →
      parseValue f (marshal v ++ rest) = some (canon v, rest)) ∧
    (∀ es rest, jsizeList es + 1 ≤ f → ukeysList es = true →
      parseElems0 f (marshalElems es ++ (93 :: rest)) = some (canonList es, rest)) ∧
    (∀ es rest, jsizeList es + 1 ≤ f → ukeysList es = true →
      parseElemsRest f (marshalSep es ++ (93 :: rest)) = some (canonList es, rest)) ∧
    (∀ k v rest, jsize v + 1 ≤ f → ukeys v = true → headNotDigit rest = true →
      parseField f (strLit k ++ (58 :: (marshal v ++ rest))) = some ((k, canon v), rest)) ∧
    (∀ kvs rest, jsizeFields kvs + 1 ≤ f → ukeysFields kvs = true →
      parseFields0 f (glueFields (fieldStrs kvs) ++ (125 :: rest)) =
        some (canonFields kvs, rest)) ∧
    (∀ kvs rest, jsizeFields kvs + 1 ≤ f → ukeysFields kvs = true →
      parseFieldsRest f (glueSep (fieldStrs kvs) ++ (125 :: rest)) =
        some (canonFields kvs, rest)) := by
  intro f
  induction f with
  | zero =>
    refine ⟨?_, ?_, ?_, ?_, ?_, ?_⟩
    · intro v rest h _ _; have := jsize_pos v; omega
    · intro es rest h _; omega
    · intro es rest h _; omega
    · intro k v rest h _ _; omega
    · intro kvs rest h _; omega
    · intro kvs rest h _; omega
  | succ f ih =>
    obtain ⟨ihV, ihE0, ihER, ihFLD, ihF0, ihFR⟩ := ih
    refine ⟨?_, ?_, ?_, ?_, ?_, ?_⟩
    · -- parseValue
      intro v rest hsz huk hrest
      cases v with
      | null => rfl
      | bool b => cases b <;> rfl
      | num n => exact parseValue_num f n rest hrest
      | str s =>
        have h1 : marshal (Json.str s) ++ rest = 34 :: (escapeBytes s ++ (34 :: rest)) := by
          simp [marshal, strLit]
        rw [h1]
        have h2 : parseValue (f + 1) (34 :: (escapeBytes s ++ (34 :: rest))) =
            (parseStringBody (escapeBytes s ++ (34 :: rest))).map
              (fun p => (Json.str p.1, p.2)) := rfl
        rw [h2, parseStringBody_escapeBytes, Option.map_some']
        rfl
      | arr es =>
        have h1 : marshal (Json.arr es) ++ rest = 91 :: (marshalElems es ++ (93 :: rest)) := by
          simp [marshal]
        rw [h1]
        have h2 : parseValue (f + 1) (91 :: (marshalElems es ++ (93 :: rest))) =
            (parseElems0 f (marshalElems es ++ (93 :: rest))).map
              (fun p => (Json.arr p.1, p.2)) := rfl
        rw [h2, ihE0 es rest (by simp only [jsize] at hsz; omega) (by simpa [ukeys] using huk),
          Option.map_some']
        rfl
      | obj kvs =>
        have hnd : nodupKeys kvs = true ∧ ukeysFields kvs = true := by
          simpa only [ukeys, Bool.and_eq_true] using huk
        have h1 : marshal (Json.obj kvs) ++ rest =
            123 :: (glueFields (fieldStrs (sortF kvs)) ++ (125 :: rest)) := by
          simp [marshal, sortP_fieldStrs]
        rw [h1]
        have h2 : parseValue (f + 1)
            (123 :: (glueFields (fieldStrs (sortF kvs)) ++ (125 :: rest))) =
            (parseFields0 f (glueFields (fieldStrs (sortF kvs)) ++ (125 :: rest))).map
              (fun p => (Json.obj (dedupF p.1), p.2)) := rfl
        have hszf : jsizeFields (sortF kvs) + 1 ≤ f := by
          rw [jsizeFields_perm (sortF_perm kvs)]
          simp only [jsize] at hsz; omega
        have hukf : ukeysFields (sortF kvs) = true := by
          rw [ukeysFields_perm (sortF_perm kvs)]; exact hnd.2
        rw [h2, ihF0 (sortF kvs) rest hszf hukf, Option.map_some']
        have hdd : dedupF (canonFields (sortF kvs)) = canonFields (sortF kvs) := by
          apply dedupF_of_nodup
          rw [nodupKeys_canonFields, nodupKeys_perm (sortF_perm kvs)]
          exact hnd.1
        show some (Json.obj (dedupF (canonFields (sortF kvs))), rest) =
          some (canon (Json.obj kvs), rest)
        rw [hdd, canonFields_sortF]
        rfl
    · -- parseElems0
      intro es rest hsz huk
      cases es with
      | nil => rfl
      | cons e es2 =>
        simp only [jsizeList] at hsz
        obtain ⟨huke, hukl⟩ : ukeys e = true ∧ ukeysList es2 = true := by
          simpa only [ukeysList, Bool.and_eq_true] using huk
        obtain ⟨c, l, hm, hws, h93, h125⟩ := headOk_elim (marshal_headOk e)
        have h1 : marshalElems (e :: es2) ++ (93 :: rest) =
            marshal e ++ (marshalSep es2 ++ (93 :: rest)) := by
          simp [marshalElems, List.append_assoc]
        have hskip : skipWs (marshal e ++ (marshalSep es2 ++ (93 :: rest))) =
            c :: (l ++ (marshalSep es2 ++ (93 :: rest))) := by
          rw [hm]; exact skipWs_cons _ _ hws
        have hred : parseElems0 (f + 1) (marshal e ++ (marshalSep es2 ++ (93 :: rest))) =
            (parseValue f (marshal e ++ (marshalSep es2 ++ (93 :: rest)))).bind fun p =>
              (parseElemsRest f p.2).map fun q => (p.1 :: q.1, q.2) := by
          simp only [parseElems0, hskip]
          rw [if_neg h93]
        rw [h1, hred,
          ihV e (marshalSep es2 ++ (93 :: rest)) (by omega) huke
            (headNotDigit_marshalSep es2 rest),
          Option.some_bind]
        show (parseElemsRest f (marshalSep es2 ++ (93 :: rest))).map
            (fun q => (canon e :: q.1, q.2)) = some (canonList (e :: es2), rest)
        rw [ihER es2 rest (by omega) hukl, Option.map_some']
        rfl
    · -- parseElemsRest
      intro es rest hsz huk
      cases es with
      | nil => rfl
      | cons e es2 =>
        simp only [jsizeList] at hsz
        obtain ⟨huke, hukl⟩ : ukeys e = true ∧ ukeysList es2 = true := by
          simpa only [ukeysList, Bool.and_eq_true] using huk
        have h1 : marshalSep (e :: es2) ++ (93 :: rest) =
            44 :: (marshal e ++ (marshalSep es2 ++ (93 :: rest))) := by
          simp [marshalSep, List.append_assoc]
        have hred : ∀ X, parseElemsRest (f + 1) (44 :: X) =
            (parseValue f X).bind fun p =>
              (parseElemsRest f p.2).map fun q => (p.1 :: q.1, q.2) := fun X => rfl
        rw [h1, hred,
          ihV e (marshalSep es2 ++ (93 :: rest)) (by omega) huke
            (headNotDigit_marshalSep es2 rest),
          Option.some_bind]
        show (parseElemsRest f (marshalSep es2 ++ (93 :: rest))).map
            (fun q => (canon e :: q.1, q.2)) = some (canonList (e :: es2), rest)
        rw [ihER es2 rest (by omega) hukl, Option.map_some']
        rfl
    · -- parseField
      intro k v rest hszv hukv hrest
      have h1 : strLit k ++ (58 :: (marshal v ++ rest)) =
          34 :: (escapeBytes k ++ (34 :: (58 :: (marshal v ++ rest)))) := by
        simp [strLit]
      have hred : ∀ X, parseField (f + 1) (34 :: X) =
          (parseStringBody X).bind fun kp =>
            match skipWs kp.2 with
            | [] => none
            | c2 :: r2 =>
              if c2 = 58 then (parseValue f r2).map fun vp => ((kp.1, vp.1), vp.2)
              else none := fun X => rfl
      rw [h1, hred, parseStringBody_escapeBytes, Option.some_bind]
      show (parseValue f (marshal v ++ rest)).map (fun vp => ((k, vp.1), vp.2)) =
        some ((k, canon v), rest)
      rw [ihV v rest (by omega) hukv hrest, Option.map_some']
    · -- parseFields0
      intro kvs rest hsz huk
      cases kvs with
      | nil => rfl
      | cons kv kvs2 =>
        obtain ⟨k, v⟩ := kv
        simp only [jsizeFields] at hsz
        obtain ⟨hukv, hukl⟩ : ukeys v = true ∧ ukeysFields kvs2 = true := by
          simpa only [ukeysFields, Bool.and_eq_true] using huk
        have h1 : glueFields (fieldStrs ((k, v) :: kvs2)) ++ (125 :: rest) =
            34 :: (escapeBytes k ++
              (34 :: (58 :: (marshal v ++ (glueSep (fieldStrs kvs2) ++ (125 :: rest)))))) := by
          simp [glueFields, fieldStrs, strLit, List.append_assoc]
        have hred : ∀ X, parseFields0 (f + 1) (34 :: X) =
            (parseField f (34 :: X)).bind fun fl =>
              (parseFieldsRest f fl.2).map fun q => (fl.1 :: q.1, q.2) := fun X => rfl
        rw [h1, hred]
        have h2 : (34 : Nat) :: (escapeBytes k ++
            (34 :: (58 :: (marshal v ++ (glueSep (fieldStrs kvs2) ++ (125 :: rest)))))) =
            strLit k ++ (58 :: (marshal v ++ (glueSep (fieldStrs kvs2) ++ (125 :: rest)))) := by
          simp [strLit]
        rw [h2,
          ihFLD k v (glueSep (fieldStrs kvs2) ++ (125 :: rest)) (by omega) hukv
            (headNotDigit_glueSep (fieldStrs kvs2) rest),
          Option.some_bind]
        show (parseFieldsRest f (glueSep (fieldStrs kvs2) ++ (125 :: rest))).map
            (fun q => ((k, canon v) :: q.1, q.2)) = some (canonFields ((k, v) :: kvs2), rest)
        rw [ihFR kvs2 rest (by omega) hukl, Option.map_some']
        rfl
    · -- parseFieldsRest
      intro kvs rest hsz huk
      cases kvs with
      | nil => rfl
      | cons kv kvs2 =>
        obtain ⟨k, v⟩ := kv
        simp only [jsizeFields] at hsz
        obtain ⟨hukv, hukl⟩ : ukeys v = true ∧ ukeysFields kvs2 = true := by
          simpa only [ukeysFields, Bool.and_eq_true] using huk
        have h1 : glueSep (fieldStrs ((k, v) :: kvs2)) ++ (125 :: rest) =
            44 :: (strLit k ++
              (58 :: (marshal v ++ (glueSep (fieldStrs kvs2) ++ (125 :: rest))))) := by
          simp [glueSep, fieldStrs, strLit, List.append_assoc]
        have hred : ∀ X, parseFieldsRest (f + 1) (44 :: X) =
            (parseField f X).bind fun fl =>
              (parseFieldsRest f fl.2).map fun q => (fl.1 :: q.1, q.2) := fun X => rfl
        rw [h1, hred,
          ihFLD k v (glueSep (fieldStrs kvs2) ++ (125 :: rest)) (by omega) hukv
            (headNotDigit_glueSep (fieldStrs kvs2) rest),
          Option.some_bind]
        show (parseFieldsRest f (glueSep (fieldStrs kvs2) ++ (125 :: rest))).map
            (fun q => ((k, canon v) :: q.1, q.2)) = some (canonFields ((k, v) :: kvs2), rest)
        rw [ihFR kvs2 rest (by omega) hukl, Option.map_some']
        rfl

lemma jsize_mem_list {e : Json} {es : List Json} (h : e ∈ es) :
    1 + jsize e ≤ jsizeList es := by
  induction es with
  | nil => cases h
  | cons a l ih =>
    rcases List.mem_cons.mp h with rfl | h2
    · simp only [jsizeList]; omega
    · have := ih h2; simp only [jsizeList]; have := jsize_pos a; omega

lemma jsize_mem_fields {p : Bytes × Json} {kvs : List (Bytes × Json)} (h : p ∈ kvs) :
    1 + jsize p.2 ≤ jsizeFields kvs := by
  induction kvs with
  | nil => cases h
  | cons a l ih =>
    rcases List.mem_cons.mp h with rfl | h2
    · simp only [jsizeFields]; omega
    · have := ih h2; simp only [jsizeFields]; have := jsize_pos a.2; omega

lemma jsize_le_marshal (v : Json) : jsize v ≤ 2 * (marshal v).length := by
  suffices H : ∀ n v, jsize v ≤ n → jsize v ≤ 2 * (marshal v).length from
    H (jsize v) v le_rfl
  intro n
  induction n with
  | zero => intro v h; have := jsize_pos v; omega
  | succ n ih =>
    intro v h
    cases v with
    | null => simp [jsize, marshal]
    | bool b => cases b <;> simp [jsize, marshal]
    | num m =>
      have hlen : 1 ≤ (marshal (Json.num m)).length := by
        rw [marshal, intBytes]
        split
        · simp
        · obtain ⟨d, ds, hEq⟩ : ∃ d ds, natToDigits m.toNat = d :: ds := by
            cases hq : natToDigits m.toNat with
            | nil => exact absurd hq (natToDigits_ne_nil _)
            | cons d ds => exact ⟨d, ds, rfl⟩
          rw [hEq]; simp
      simp only [jsize]; omega
    | str s =>
      simp only [jsize, marshal, strLit, List.length_cons, List.length_append]
      omega
    | arr es =>
      have hmem : ∀ e ∈ es, jsize e ≤ 2 * (marshal e).length := by
        intro e he
        have h1 := jsize_mem_list he
        simp only [jsize] at h
        exact ih e (by omega)
      have hsep : ∀ l : List Json, (∀ e ∈ l, jsize e ≤ 2 * (marshal e).length) →
          jsizeList l ≤ 2 * (marshalSep l).length := by
        intro l
        induction l with
        | nil => intro; simp [jsizeList, marshalSep]
        | cons e l ihl =>
          intro hl
          have h1 := hl e (by simp)
          have h2 := ihl fun x hx => hl x (by simp [hx])
          simp only [jsizeList, marshalSep, List.length_cons, List.length_append]
          omega
      have helems : jsizeList es ≤ 2 * (marshalElems es).length + 1 := by
        cases es with
        | nil => simp [jsizeList, marshalElems]
        | cons e l =>
          have h1 := hmem e (by simp)
          have h2 := hsep l fun x hx => hmem x (by simp [hx])
          simp only [jsizeList, marshalElems, List.length_append]
          omega
      simp only [jsize, marshal, List.length_cons, List.length_append,
        List.length_singleton]
      omega
    | obj kvs =>
      have hmem : ∀ p ∈ sortF kvs, jsize p.2 ≤ 2 * (marshal p.2).length := by
        intro p hp
        have hpk : p ∈ kvs := (sortF_perm kvs).mem_iff.mp hp
        have h1 := jsize_mem_fields hpk
        simp only [jsize] at h
        exact ih p.2 (by omega)
      have hgs : ∀ l : List (Bytes × Json),
          (∀ p ∈ l, jsize p.2 ≤ 2 * (marshal p.2).length) →
          jsizeFields l ≤ 2 * (glueSep (fieldStrs l)).length := by
        intro l
        induction l with
        | nil => intro; simp [jsizeFields, fieldStrs, glueSep]
        | cons p l ihl =>
          intro hl
          obtain ⟨k, v⟩ := p
          have h1 : jsize v ≤ 2 * (marshal v).length := hl (k, v) (by simp)
          have h2 := ihl fun x hx => hl x (by simp [hx])
          simp only [jsizeFields, fieldStrs, glueSep, List.length_cons,
            List.length_append]
          omega
      have hgf : ∀ l : List (Bytes × Json),
          (∀ p ∈ l, jsize p.2 ≤ 2 * (marshal p.2).length) →
          jsizeFields l ≤ 2 * (glueFields (fieldStrs l)).length + 1 := by
        intro l hl
        cases l with
        | nil => simp [jsizeFields, fieldStrs, glueFields]
        | cons p l =>
          obtain ⟨k, v⟩ := p
          have h1 : jsize v ≤ 2 * (marshal v).length := hl (k, v) (by simp)
          have h2 := hgs l fun x hx => hl x (by simp [hx])
          simp only [jsizeFields, fieldStrs, glueFields, List.length_cons,
            List.length_append]
          omega
      have hperm : jsizeFields kvs = jsizeFields (sortF kvs) :=
        (jsizeFields_perm (sortF_perm kvs)).symm
      have hbound := hgf (sortF kvs) hmem
      simp only [jsize, marshal, sortP_fieldStrs, List.length_cons, List.length_append,
        List.length_singleton]
      omega

lemma headNotDigit_nil : headNotDigit [] = true := rfl

/-- Marshalling and decoding round trip: decoding the marshalled form of a
value with unique object keys yields its canonical (key-sorted) form. -/
theorem parseJson_marshal (v : Json) (huk : ukeys v = true) :
    parseJson (marshal v) = some (canon v) := by
  have h := (rt_main (2 * (marshal v).length + 2)).1 v []
    (by have := jsize_le_marshal v; omega) huk headNotDigit_nil
  rw [List.append_nil] at h
  simp only [parseJson, h]
  rfl

lemma bytesLe_trans : ∀ {a b c : Bytes},
    bytesLe a b = true → bytesLe b c = true → bytesLe a c = true := by
  intro a
  induction a with
  | nil => intro b c _ _; rfl
  | cons x xs ih =>
    intro b c h1 h2
    cases b with
    | nil => simp [bytesLe] at h1
    | cons y ys =>
      cases c with
      | nil => simp [bytesLe] at h2
      | cons z zs =>
        simp only [bytesLe, Bool.or_eq_true, Bool.and_eq_true, decide_eq_true_eq] at h1 h2 ⊢
        rcases h1 with h1 | ⟨h1e, h1r⟩
        · rcases h2 with h2 | ⟨h2e, h2r⟩
          · left; omega
          · left; omega
        · rcases h2 with h2 | ⟨h2e, h2r⟩
          · left; omega
          · right; exact ⟨by omega, ih h1r h2r⟩

lemma bytesLe_total : ∀ a b : Bytes, bytesLe a b = true ∨ bytesLe b a = true := by
  intro a
  induction a with
  | nil => intro b; left; rfl
  | cons x xs ih =>
    intro b
    cases b with
    | nil => right; rfl
    | cons y ys =>
      simp only [bytesLe, Bool.or_eq_true, Bool.and_eq_true, decide_eq_true_eq]
      rcases Nat.lt_trichotomy x y with h | h | h
      · left; left; omega
      · rcases ih ys with h2 | h2
        · left; right; exact ⟨h, h2⟩
        · right; right; exact ⟨h.symm, h2⟩
      · right; left; omega

instance : IsTrans (Bytes × Bytes) fieldStrLe := ⟨fun _ _ _ h1 h2 => bytesLe_trans h1 h2⟩
instance : IsTotal (Bytes × Bytes) fieldStrLe := ⟨fun a b => bytesLe_total a.1 b.1⟩
instance : IsTrans (Bytes × Json) fieldLe := ⟨fun _ _ _ h1 h2 => bytesLe_trans h1 h2⟩
instance : IsTotal (Bytes × Json) fieldLe := ⟨fun a b => bytesLe_total a.1 b.1⟩

lemma sortP_sortP (l : List (Bytes × Bytes)) : sortP (sortP l) = sortP l :=
  List.Sorted.insertionSort_eq (List.sorted_insertionSort fieldStrLe l)

lemma marshal_canon (v : Json) : marshal (canon v) = marshal v := by
  suffices H : ∀ n v, jsize v ≤ n → marshal (canon v) = marshal v from H (jsize v) v le_rfl
  intro n
  induction n with
  | zero => intro v h; have := jsize_pos v; exact absurd h (by omega)
  | succ n ih =>
    intro v h
    cases v with
    | null => rfl
    | bool b => rfl
    | num m => rfl
    | str s => rfl
    | arr es =>
      have hmem : ∀ e ∈ es, marshal (canon e) = marshal e := by
        intro e he
        have h1 := jsize_mem_list he
        simp only [jsize] at h
        exact ih e (by omega)
      have hsep : ∀ l : List Json, (∀ e ∈ l, marshal (canon e) = marshal e) →
          marshalSep (canonList l) = marshalSep l := by
        intro l
        induction l with
        | nil => intro; rfl
        | cons e l ihl =>
          intro hl
          simp only [canonList, marshalSep, hl e (by simp),
            ihl fun x hx => hl x (by simp [hx])]
      have helems : marshalElems (canonList es) = marshalElems es := by
        cases es with
        | nil => rfl
        | cons e l =>
          simp only [canonList, marshalElems, hmem e (by simp),
            hsep l fun x hx => hmem x (by simp [hx])]
      simp only [canon, marshal, helems]
    | obj kvs =>
      have hmem : ∀ p ∈ kvs, marshal (canon p.2) = marshal p.2 := by
        intro p hp
        have h1 := jsize_mem_fields hp
        simp only [jsize] at h
        exact ih p.2 (by omega)
      have hfs : ∀ l : List (Bytes × Json),
          (∀ p ∈ l, marshal (canon p.2) = marshal p.2) →
          fieldStrs (canonFields l) = fieldStrs l := by
        intro l
        induction l with
        | nil => intro; rfl
        | cons p l ihl =>
          intro hl
          obtain ⟨k, w⟩ := p
          have h1 : marshal (canon w) = marshal w := hl (k, w) (by simp)
          simp only [canonFields, fieldStrs, h1, ihl fun x hx => hl x (by simp [hx])]
      simp only [canon, marshal, ← sortP_fieldStrs, sortP_sortP, hfs kvs hmem]

lemma mem_updF {q p : Bytes × Json} {acc : List (Bytes × Json)}
    (h : q ∈ updF acc p) : q ∈ acc ∨ q = p := by
  induction acc with
  | nil =>
    simp only [updF, List.mem_singleton] at h
    right; rw [h]
  | cons r acc ih =>
    rw [updF] at h
    split at h
    · rcases List.mem_cons.mp h with h2 | h2
      · right; rw [h2]
      · left; exact List.mem_cons_of_mem r h2
    · rcases List.mem_cons.mp h with h2 | h2
      · left; rw [h2]; exact List.mem_cons_self r acc
      · rcases ih h2 with h3 | h3
        · left; exact List.mem_cons_of_mem r h3
        · right; exact h3

lemma keys_updF (acc : List (Bytes × Json)) (p : Bytes × Json) :
    (updF acc p).map Prod.fst =
      if p.1 ∈ acc.map Prod.fst then acc.map Prod.fst
      else acc.map Prod.fst ++ [p.1] := by
  induction acc with
  | nil => simp [updF]
  | cons r acc ih =>
    rw [updF]
    split
    · rename_i he
      rw [if_pos (by simp [← he])]
      simp [he]
    · rename_i he
      simp only [List.map_cons]
      rw [ih]
      by_cases hmem : p.1 ∈ acc.map Prod.fst
      · rw [if_pos hmem, if_pos (by simp [hmem])]
      · rw [if_neg hmem, if_neg (by simp [hmem]; exact fun hq => he hq.symm)]
        simp

lemma nodupKeys_updF (acc : List (Bytes × Json)) (p : Bytes × Json)
    (h : nodupKeys acc = true) : nodupKeys (updF acc p) = true := by
  rw [nodupKeys_iff] at h ⊢
  rw [keys_updF]
  split
  · exact h
  · rename_i hmem
    simp [List.nodup_append, h, hmem]

lemma nodupKeys_dedupF (l : List (Bytes × Json)) : nodupKeys (dedupF l) = true := by
  suffices H : ∀ acc, nodupKeys acc = true → nodupKeys (l.foldl updF acc) = true from
    H [] rfl
  induction l with
  | nil => intro acc h; exact h
  | cons p l ih =>
    intro acc h
    exact ih (updF acc p) (nodupKeys_updF acc p h)

lemma mem_foldl_updF :
    ∀ (l : List (Bytes × Json)) (acc : List (Bytes × Json)) (q : Bytes × Json),
      q ∈ l.foldl updF acc → q ∈ acc ∨ q ∈ l := by
  intro l
  induction l with
  | nil => intro acc q h2; exact Or.inl h2
  | cons p l ih =>
    intro acc q h2
    rcases ih (updF acc p) q h2 with h3 | h3
    · rcases mem_updF h3 with h4 | h4
      · exact Or.inl h4
      · right; rw [h4]; exact List.mem_cons_self p l
    · right; exact List.mem_cons_of_mem p h3

lemma mem_dedupF {q : Bytes × Json} {l : List (Bytes × Json)}
    (h : q ∈ dedupF l) : q ∈ l :=
  (mem_foldl_updF l [] q h).resolve_left (by simp)

lemma ukeysFields_dedupF (l : List (Bytes × Json)) (h : ukeysFields l = true) :
    ukeysFields (dedupF l) = true := by
  rw [ukeysFields_iff] at h ⊢
  exact fun p hp => h p (mem_dedupF hp)

/-- Every value produced by the parser has unique keys at every object level:
parsed objects are Go maps. -/
theorem parse_ukeys : ∀ f : Nat,
    (∀ bs v rest, parseValue f bs = some (v, rest) → ukeys v = true) ∧
    (∀ bs vs rest, parseElems0 f bs = some (vs, rest) → ukeysList vs = true) ∧
    (∀ bs vs rest, parseElemsRest f bs = some (vs, rest) → ukeysList vs = true) ∧
    (∀ bs fl rest, parseField f bs = some (fl, rest) → ukeys fl.2 = true) ∧
    (∀ bs kvs rest, parseFields0 f bs = some (kvs, rest) → ukeysFields kvs = true) ∧
    (∀ bs kvs rest, parseFieldsRest f bs = some (kvs, rest) → ukeysFields kvs = true) := by
  intro f
  induction f with
  | zero =>
    refine ⟨?_, ?_, ?_, ?_, ?_, ?_⟩ <;> intro bs x rest h <;> exact absurd h (by simp [parseValue, parseElems0, parseElemsRest, parseField, parseFields0, parseFieldsRest])
  | succ f ih =>
    obtain ⟨ihV, ihE0, ihER, ihFLD, ihF0, ihFR⟩ := ih
    refine ⟨?_, ?_, ?_, ?_, ?_, ?_⟩
    · intro bs v rest h
      rw [parseValue] at h
      cases hsw : skipWs bs with
      | nil => rw [hsw] at h; exact absurd h (by simp)
      | cons c rest1 =>
        rw [hsw] at h
        dsimp only at h
        split_ifs at h with h1 h2 h3 h4 h5 h6 h7 h8
        · obtain ⟨p, hp, hv⟩ := Option.map_eq_some'.mp h
          obtain ⟨rfl, rfl⟩ : Json.obj (dedupF p.1) = v ∧ p.2 = rest := by
            exact ⟨congrArg Prod.fst hv, congrArg Prod.snd hv⟩
          simp only [ukeys, Bool.and_eq_true]
          exact ⟨nodupKeys_dedupF _, ukeysFields_dedupF _ (ihF0 _ _ _ (by rw [hp]))⟩
        · obtain ⟨p, hp, hv⟩ := Option.map_eq_some'.mp h
          obtain ⟨rfl, rfl⟩ : Json.arr p.1 = v ∧ p.2 = rest :=
            ⟨congrArg Prod.fst hv, congrArg Prod.snd hv⟩
          simp only [ukeys]
          exact ihE0 _ _ _ (by rw [hp])
        · obtain ⟨p, hp, hv⟩ := Option.map_eq_some'.mp h
          obtain ⟨rfl, rfl⟩ : Json.str p.1 = v ∧ p.2 = rest :=
            ⟨congrArg Prod.fst hv, congrArg Prod.snd hv⟩
          rfl
        · obtain ⟨r, _, hv⟩ := Option.map_eq_some'.mp h
          obtain ⟨rfl, rfl⟩ : Json.bool true = v ∧ r = rest :=
            ⟨congrArg Prod.fst hv, congrArg Prod.snd hv⟩
          rfl
        · obtain ⟨r, _, hv⟩ := Option.map_eq_some'.mp h
          obtain ⟨rfl, rfl⟩ : Json.bool false = v ∧ r = rest :=
            ⟨congrArg Prod.fst hv, congrArg Prod.snd hv⟩
          rfl
        · obtain ⟨r, _, hv⟩ := Option.map_eq_some'.mp h
          obtain ⟨rfl, rfl⟩ : Json.null = v ∧ r = rest :=
            ⟨congrArg Prod.fst hv, congrArg Prod.snd hv⟩
          rfl
        · obtain ⟨p, _, hv⟩ := Option.map_eq_some'.mp h
          obtain ⟨rfl, rfl⟩ : Json.num (-(p.1 : Int)) = v ∧ p.2 = rest :=
            ⟨congrArg Prod.fst hv, congrArg Prod.snd hv⟩
          rfl
        · obtain ⟨p, _, hv⟩ := Option.map_eq_some'.mp h
          obtain ⟨rfl, rfl⟩ : Json.num (p.1 : Int) = v ∧ p.2 = rest :=
            ⟨congrArg Prod.fst hv, congrArg Prod.snd hv⟩
          rfl
    · intro bs vs rest h
      rw [parseElems0] at h
      cases hsw : skipWs bs with
      | nil => rw [hsw] at h; exact absurd h (by simp)
      | cons c rest1 =>
        rw [hsw] at h
        dsimp only at h
        split_ifs at h with h1
        · obtain ⟨rfl, rfl⟩ : ([] : List Json) = vs ∧ rest1 = rest := by
            injection h with h2
            exact ⟨congrArg Prod.fst h2, congrArg Prod.snd h2⟩
          rfl
        · obtain ⟨p, hp, hq⟩ := Option.bind_eq_some.mp h
          obtain ⟨q, hq2, hvs⟩ := Option.map_eq_some'.mp hq
          obtain ⟨rfl, rfl⟩ : p.1 :: q.1 = vs ∧ q.2 = rest :=
            ⟨congrArg Prod.fst hvs, congrArg Prod.snd hvs⟩
          simp only [ukeysList, Bool.and_eq_true]
          exact ⟨ihV _ _ _ (by rw [hp]), ihER _ _ _ (by rw [hq2])⟩
    · intro bs vs rest h
      rw [parseElemsRest] at h
      cases hsw : skipWs bs with
      | nil => rw [hsw] at h; exact absurd h (by simp)
      | cons c rest1 =>
        rw [hsw] at h
        dsimp only at h
        split_ifs at h with h1 h2
        · obtain ⟨rfl, rfl⟩ : ([] : List Json) = vs ∧ rest1 = rest := by
            injection h with h3
            exact ⟨congrArg Prod.fst h3, congrArg Prod.snd h3⟩
          rfl
        · obtain ⟨p, hp, hq⟩ := Option.bind_eq_some.mp h
          obtain ⟨q, hq2, hvs⟩ := Option.map_eq_some'.mp hq
          obtain ⟨rfl, rfl⟩ : p.1 :: q.1 = vs ∧ q.2 = rest :=
            ⟨congrArg Prod.fst hvs, congrArg Prod.snd hvs⟩
          simp only [ukeysList, Bool.and_eq_true]
          exact ⟨ihV _ _ _ (by rw [hp]), ihER _ _ _ (by rw [hq2])⟩
    · intro bs fl rest h
      rw [parseField] at h
      cases hsw : skipWs bs with
      | nil => rw [hsw] at h; exact absurd h (by simp)
      | cons c rest1 =>
        rw [hsw] at h
        dsimp only at h
        split_ifs at h with h1
        · obtain ⟨kp, hkp, h2⟩ := Option.bind_eq_some.mp h
          cases hsw2 : skipWs kp.2 with
          | nil => rw [hsw2] at h2; exact absurd h2 (by simp)
          | cons c2 r2 =>
            rw [hsw2] at h2
            dsimp only at h2
            split_ifs at h2 with h3
            · obtain ⟨vp, hvp, hfl⟩ := Option.map_eq_some'.mp h2
              obtain ⟨rfl, rfl⟩ : (kp.1, vp.1) = fl ∧ vp.2 = rest :=
                ⟨congrArg Prod.fst hfl, congrArg Prod.snd hfl⟩
              exact ihV _ _ _ (by rw [hvp])
    · intro bs kvs rest h
      rw [parseFields0] at h
      cases hsw : skipWs bs with
      | nil => rw [hsw] at h; exact absurd h (by simp)
      | cons c rest1 =>
        rw [hsw] at h
        dsimp only at h
        split_ifs at h with h1
        · obtain ⟨rfl, rfl⟩ : ([] : List (Bytes × Json)) = kvs ∧ rest1 = rest := by
            injection h with h2
            exact ⟨congrArg Prod.fst h2, congrArg Prod.snd h2⟩
          rfl
        · obtain ⟨fl, hfl, hq⟩ := Option.bind_eq_some.mp h
          obtain ⟨q, hq2, hkvs⟩ := Option.map_eq_some'.mp hq
          obtain ⟨rfl, rfl⟩ : fl.1 :: q.1 = kvs ∧ q.2 = rest :=
            ⟨congrArg Prod.fst hkvs, congrArg Prod.snd hkvs⟩
          simp only [ukeysFields_iff]
          intro p hp
          rcases List.mem_cons.mp hp with rfl | hp2
          · exact ihFLD _ _ _ (by rw [hfl])
          · exact (ukeysFields_iff _).mp (ihFR _ _ _ (by rw [hq2])) p hp2
    · intro bs kvs rest h
      rw [parseFieldsRest] at h
      cases hsw : skipWs bs with
      | nil => rw [hsw] at h; exact absurd h (by simp)
      | cons c rest1 =>
        rw [hsw] at h
        dsimp only at h
        split_ifs at h with h1 h2
        · obtain ⟨rfl, rfl⟩ : ([] : List (Bytes × Json)) = kvs ∧ rest1 = rest := by
            injection h with h3
            exact ⟨congrArg Prod.fst h3, congrArg Prod.snd h3⟩
          rfl
        · obtain ⟨fl, hfl, hq⟩ := Option.bind_eq_some.mp h
          obtain ⟨q, hq2, hkvs⟩ := Option.map_eq_some'.mp hq
          obtain ⟨rfl, rfl⟩ : fl.1 :: q.1 = kvs ∧ q.2 = rest :=
            ⟨congrArg Prod.fst hkvs, congrArg Prod.snd hkvs⟩
          simp only [ukeysFields_iff]
          intro p hp
          rcases List.mem_cons.mp hp with rfl | hp2
          · exact ihFLD _ _ _ (by rw [hfl])
          · exact (ukeysFields_iff _).mp (ihFR _ _ _ (by rw [hq2])) p hp2

lemma jlookup_append_left {k : Bytes} {acc X : List (Bytes × Json)}
    (h : k ∈ acc.map Prod.fst) : jlookup k (acc ++ X) = jlookup k acc := by
  induction acc with
  | nil => simp at h
  | cons q acc ih =>
    obtain ⟨k2, v⟩ := q
    by_cases he : k2 = k
    · simp [jlookup, he]
    · simp only [List.map_cons, List.mem_cons] at h
      rcases h with h | h
      · exact absurd h.symm he
      · simp [jlookup, he, ih h]

lemma jlookup_append_right {k : Bytes} {v : Json} {acc : List (Bytes × Json)}
    (h : k ∉ acc.map Prod.fst) : jlookup k (acc ++ [(k, v)]) = some v := by
  induction acc with
  | nil => simp [jlookup]
  | cons q acc ih =>
    obtain ⟨k2, w⟩ := q
    simp only [List.map_cons, List.mem_cons] at h
    push_neg at h
    rw [List.cons_append, jlookup, if_neg (fun he => h.1 he.symm)]
    exact ih h.2

lemma mem_keys_insertStep {k : Bytes} {acc : List (Bytes × Json)} (p : Bytes × Json)
    (h : k ∈ acc.map Prod.fst) : k ∈ (insertStep acc p).map Prod.fst := by
  rw [insertStep]
  split
  · exact h
  · simp [h]

lemma jlookup_insertStep {k : Bytes} {acc : List (Bytes × Json)} (p : Bytes × Json)
    (h : k ∈ acc.map Prod.fst) : jlookup k (insertStep acc p) = jlookup k acc := by
  rw [insertStep]
  split
  · rfl
  · exact jlookup_append_left h

lemma mem_keys_insertAbsent {k : Bytes} (cfg : List (Bytes × Json))
    {kvs : List (Bytes × Json)} (h : k ∈ kvs.map Prod.fst) :
    k ∈ (insertAbsent cfg kvs).map Prod.fst := by
  induction cfg generalizing kvs with
  | nil => exact h
  | cons p cfg ih => exact ih (mem_keys_insertStep p h)

lemma jlookup_insertAbsent_present {k : Bytes} (cfg : List (Bytes × Json))
    {kvs : List (Bytes × Json)} (h : k ∈ kvs.map Prod.fst) :
    jlookup k (insertAbsent cfg kvs) = jlookup k kvs := by
  induction cfg generalizing kvs with
  | nil => rfl
  | cons p cfg ih =>
    rw [insertAbsent, List.foldl_cons]
    rw [show (List.foldl insertStep (insertStep kvs p) cfg) =
      insertAbsent cfg (insertStep kvs p) from rfl]
    rw [ih (mem_keys_insertStep p h), jlookup_insertStep p h]

lemma insertAbsent_keys_covered {cfg kvs : List (Bytes × Json)}
    (p : Bytes × Json) (hp : p ∈ cfg) :
    p.1 ∈ (insertAbsent cfg kvs).map Prod.fst := by
  induction cfg generalizing kvs with
  | nil => cases hp
  | cons q cfg ih =>
    rcases List.mem_cons.mp hp with rfl | hp2
    · rw [insertAbsent, List.foldl_cons]
      rw [show (List.foldl insertStep (insertStep kvs p) cfg) =
        insertAbsent cfg (insertStep kvs p) from rfl]
      apply mem_keys_insertAbsent
      rw [insertStep]
      split
      · assumption
      · simp
    · exact ih hp2

lemma insertAbsent_of_covered : ∀ (cfg kvs : List (Bytes × Json)),
    (∀ p ∈ cfg, p.1 ∈ kvs.map Prod.fst) → insertAbsent cfg kvs = kvs := by
  intro cfg
  induction cfg with
  | nil => intro kvs _; rfl
  | cons p cfg ih =>
    intro kvs h
    rw [insertAbsent, List.foldl_cons]
    rw [show insertStep kvs p = kvs from by
      rw [insertStep, if_pos (h p (List.mem_cons_self p cfg))]]
    exact ih kvs fun q hq => h q (List.mem_cons_of_mem p hq)

lemma jlookup_insertAbsent_absent {cfg kvs : List (Bytes × Json)}
    {k : Bytes} {v : Json} (hnd : (cfg.map Prod.fst).Nodup)
    (hp : (k, v) ∈ cfg) (habs : k ∉ kvs.map Prod.fst) :
    jlookup k (insertAbsent cfg kvs) = some v := by
  induction cfg generalizing kvs with
  | nil => cases hp
  | cons q cfg ih =>
    rw [insertAbsent, List.foldl_cons]
    rw [show (List.foldl insertStep (insertStep kvs q) cfg) =
      insertAbsent cfg (insertStep kvs q) from rfl]
    rcases List.mem_cons.mp hp with heq | hp2
    · subst heq
      have hstep : insertStep kvs (k, v) = kvs ++ [(k, v)] := by
        rw [insertStep, if_neg habs]
      rw [hstep]
      have hkmem : k ∈ (kvs ++ [(k, v)]).map Prod.fst := by simp
      rw [jlookup_insertAbsent_present cfg hkmem, jlookup_append_right habs]
    · have hkq : k ≠ q.1 := by
        simp only [List.map_cons, List.nodup_cons] at hnd
        intro he
        refine hnd.1 ?_
        rw [← he]
        exact List.mem_map_of_mem Prod.fst hp2
      have habs2 : k ∉ (insertStep kvs q).map Prod.fst := by
        rw [insertStep]
        split
        · exact habs
        · simp only [List.map_append, List.mem_append]
          rintro (h2 | h2)
          · exact habs h2
          · simp at h2; exact hkq h2
      have hnd2 : (cfg.map Prod.fst).Nodup := by
        simp only [List.map_cons, List.nodup_cons] at hnd
        exact hnd.2
      exact ih hnd2 hp2 habs2

lemma nodupKeys_insertStep {acc : List (Bytes × Json)} (p : Bytes × Json)
    (h : nodupKeys acc = true) : nodupKeys (insertStep acc p) = true := by
  rw [insertStep]
  split
  · exact h
  · rename_i hmem
    rw [nodupKeys_iff] at h ⊢
    simp [List.nodup_append, h, hmem]

lemma nodupKeys_insertAbsent (cfg : List (Bytes × Json))
    {kvs : List (Bytes × Json)} (h : nodupKeys kvs = true) :
    nodupKeys (insertAbsent cfg kvs) = true := by
  induction cfg generalizing kvs with
  | nil => exact h
  | cons p cfg ih => exact ih (nodupKeys_insertStep p h)

lemma mem_insertAbsent {q : Bytes × Json} : ∀ {cfg kvs : List (Bytes × Json)},
    q ∈ insertAbsent cfg kvs → q ∈ kvs ∨ q ∈ cfg := by
  intro cfg
  induction cfg with
  | nil => intro kvs h; exact Or.inl h
  | cons p cfg ih =>
    intro kvs h
    rcases ih h with h2 | h2
    · rw [insertStep] at h2
      split at h2
      · exact Or.inl h2
      · rcases List.mem_append.mp h2 with h3 | h3
        · exact Or.inl h3
        · right; simp at h3; rw [h3]; exact List.mem_cons_self p cfg
    · right; exact List.mem_cons_of_mem p h2

lemma ukeysFields_insertAbsent {cfg kvs : List (Bytes × Json)}
    (h1 : ukeysFields kvs = true) (h2 : ∀ p ∈ cfg, ukeys p.2 = true) :
    ukeysFields (insertAbsent cfg kvs) = true := by
  rw [ukeysFields_iff] at h1 ⊢
  intro p hp
  rcases mem_insertAbsent hp with h3 | h3
  · exact h1 p h3
  · exact h2 p h3

lemma jlookup_canonFields (k : Bytes) (l : List (Bytes × Json)) :
    jlookup k (canonFields l) = (jlookup k l).map canon := by
  induction l with
  | nil => rfl
  | cons p l ih =>
    obtain ⟨k2, v⟩ := p
    by_cases he : k2 = k
    · simp [canonFields, jlookup, he]
    · simp [canonFields, jlookup, he, ih]

lemma jlookup_eq_some_of_mem {l : List (Bytes × Json)} {k : Bytes} {v : Json}
    (hnd : nodupKeys l = true) (h : (k, v) ∈ l) : jlookup k l = some v := by
  induction l with
  | nil => cases h
  | cons q l ih =>
    obtain ⟨k2, w⟩ := q
    rcases List.mem_cons.mp h with heq | h2
    · injection heq with he1 he2
      simp [jlookup, he1.symm, he2.symm]
    · have hk : k2 ≠ k := by
        rw [nodupKeys_iff] at hnd
        simp only [List.map_cons, List.nodup_cons] at hnd
        intro he
        exact hnd.1 (by rw [he]; exact List.mem_map_of_mem Prod.fst h2)
      have hnd2 : nodupKeys l = true := by
        rw [nodupKeys_iff] at hnd ⊢
        simp only [List.map_cons, List.nodup_cons] at hnd
        exact hnd.2
      simp [jlookup, hk, ih hnd2 h2]

lemma jlookup_eq_none_of_not_mem {l : List (Bytes × Json)} {k : Bytes}
    (h : k ∉ l.map Prod.fst) : jlookup k l = none := by
  induction l with
  | nil => rfl
  | cons q l ih =>
    obtain ⟨k2, w⟩ := q
    simp only [List.map_cons, List.mem_cons] at h
    push_neg at h
    rw [jlookup, if_neg (fun he => h.1 he.symm)]
    exact ih h.2

lemma jlookup_mem {l : List (Bytes × Json)} {k : Bytes} {v : Json}
    (h : jlookup k l = some v) : (k, v) ∈ l := by
  induction l with
  | nil => simp [jlookup] at h
  | cons q l ih =>
    obtain ⟨k2, w⟩ := q
    rw [jlookup] at h
    split at h
    · rename_i he
      injection h with hv
      rw [← he, hv]
      exact List.mem_cons_self _ _
    · exact List.mem_cons_of_mem _ (ih h)

/-- Lookup is invariant under permutation when keys are unique. -/
lemma jlookup_perm {l l2 : List (Bytes × Json)} (hperm : l.Perm l2)
    (hnd : nodupKeys l = true) (k : Bytes) : jlookup k l = jlookup k l2 := by
  have hnd2 : nodupKeys l2 = true := by rw [← nodupKeys_perm hperm]; exact hnd
  cases hv : jlookup k l with
  | some v =>
    exact (jlookup_eq_some_of_mem hnd2 (hperm.mem_iff.mp (jlookup_mem hv))).symm
  | none =>
    have hk : k ∉ l.map Prod.fst := by
      intro hmem
      obtain ⟨p, hp, hpk⟩ := List.mem_map.mp hmem
      obtain ⟨k1, v1⟩ := p
      simp only at hpk
      subst hpk
      have h2 := jlookup_eq_some_of_mem hnd hp
      rw [hv] at h2
      simp at h2
    rw [jlookup_eq_none_of_not_mem
      (fun hmem => hk ((hperm.map Prod.fst).mem_iff.mpr hmem))]

/-! ### Helper lemmas about the handlers -/

lemma mkDelivery_shape {req : Request} {wk uid : Bytes} {now : Int} {e : Event}
    {d : Delivery} (h : mkDelivery req wk uid now e = some d) :
    d.method = "POST" ∧ d.path = "/v1/page" := by
  rw [mkDelivery] at h
  split_ifs at h
  split at h
  · exact absurd h (by simp)
  · exact absurd h (by simp)
  · injection h with h2
    rw [← h2]
    exact ⟨rfl, rfl⟩

lemma handleRequestB_passthrough (req : Request) (s : Bool) (now : Int) :
    (handleRequestB req s now).1 = req ∧ (handleRequestB req s now).2.1 = false := by
  rw [handleRequestB]
  split_ifs <;> (repeat' split) <;> exact ⟨rfl, rfl⟩

lemma handleRequestB_success {req : Request} {bb content : Bytes} {sd : SegmentData}
    (now : Int)
    (hc : strContains req.path "/rec/bundle/v2" = true)
    (hb : req.body = some bb)
    (hs : segmentContent req bb = some content)
    (hu : unmarshalSegmentData content = some sd) :
    handleRequestB req false now =
      (req, false, sd.evts.filterMap
        (mkDelivery req sd.writeKey (ascii (queryGet req.query "UserId")) now)) := by
  rw [handleRequestB, if_neg (by simp), if_neg (by simp [hc]), hb]
  dsimp only
  rw [hs]
  dsimp only
  rw [hu]

lemma handleRequestA_noMatch {req : Request} (s : Bool) (now : Int)
    (h : req.path ≠ "/rec/bundle/v2") : handleRequestA req s now = (req, false) := by
  rw [handleRequestA]
  split_ifs
  · rfl
  · rfl

lemma handleRequestA_contentFail {req : Request} {bb : Bytes} (s : Bool) (now : Int)
    (hb : req.body = some bb) (hs : segmentContent req bb = none) :
    handleRequestA req s now = (req, false) := by
  rw [handleRequestA]
  split_ifs <;>
    first
      | rfl
      | (rw [hb]; dsimp only; rw [hs])

lemma handleRequestB_contentFail {req : Request} {bb : Bytes} (s : Bool) (now : Int)
    (hb : req.body = some bb) (hs : segmentContent req bb = none) :
    handleRequestB req s now = (req, false, []) := by
  rw [handleRequestB]
  split_ifs <;>
    first
      | rfl
      | (rw [hb]; dsimp only; rw [hs])

lemma handleRequestA_parseFail {req : Request} {bb content : Bytes} (s : Bool) (now : Int)
    (hb : req.body = some bb) (hs : segmentContent req bb = some content)
    (hu : unmarshalSegmentData content = none) :
    handleRequestA req s now = (req, false) := by
  rw [handleRequestA]
  split_ifs <;>
    first
      | rfl
      | (rw [hb]; dsimp only; rw [hs]; dsimp only; rw [hu])

lemma handleRequestB_parseFail {req : Request} {bb content : Bytes} (s : Bool) (now : Int)
    (hb : req.body = some bb) (hs : segmentContent req bb = some content)
    (hu : unmarshalSegmentData content = none) :
    handleRequestB req s now = (req, false, []) := by
  rw [handleRequestB]
  split_ifs <;>
    first
      | rfl
      | (rw [hb]; dsimp only; rw [hs]; dsimp only; rw [hu])

lemma parseJson_gzipEncode (b : Bytes) : parseJson (gzipEncode b) = none := rfl

/-! ### The claims -/

/-- C9: for every request whose RequestInfo carries serviced = true, every
plugin handler is a no-op: it returns false and hands back the request
untouched, and the fan-out segment variant issues no deliveries. -/
theorem C9_serviced_noop (cfg : EnricherConfig) (req : Request) (now : Int) :
    enricherHandleRequest cfg req true = (req, false) ∧
    handleRequestA req true now = (req, false) ∧
    handleRequestB req true now = (req, false, []) :=
  ⟨rfl, rfl, rfl⟩

/-- C10: the content-enricher factory self-disables (returns no plugin)
exactly when its config section yields zero body and zero header
enrichments; with at least one enrichment it returns an active plugin
carrying them, and a malformed subsection is a factory error rather than a
silent disable. -/
theorem C10_factory (s : ConfigSection) :
    ((s.bodyOpt = ConfigParse.malformed ∨ s.headersOpt = ConfigParse.malformed) →
      ∃ e, enricherFactoryNew s = Except.error e) ∧
    (∀ bodyE headerE,
      parseOptional s.bodyOpt [] (fun acc m => acc ++ m) = Except.ok bodyE →
      parseOptional s.headersOpt [] (fun acc m => acc ++ m) = Except.ok headerE →
      (enricherFactoryNew s = Except.ok none ↔ bodyE = [] ∧ headerE = []) ∧
      (¬(bodyE = [] ∧ headerE = []) →
        enricherFactoryNew s = Except.ok (some ⟨bodyE, headerE⟩))) := by
  constructor
  · rintro (hm | hm)
    · rw [enricherFactoryNew, hm]
      exact ⟨_, rfl⟩
    · cases hb : s.bodyOpt <;> rw [enricherFactoryNew, hb, hm] <;> exact ⟨_, rfl⟩
  · intro bodyE headerE hb hh
    rw [enricherFactoryNew, hb, hh]
    dsimp only
    constructor
    · constructor
      · intro h
        split_ifs at h with hcond
        · simpa [List.isEmpty_iff] using hcond
        · simp at h
      · rintro ⟨rfl, rfl⟩
        rfl
    · intro hne
      rw [if_neg (by
        simp only [Bool.and_eq_true, List.isEmpty_iff]
        exact hne)]

/-- C10 witness: at concrete config sections the factory yields an active
plugin, a self-disable, and an error respectively. -/
theorem C10_factory_witness :
    enricherFactoryNew ⟨ConfigParse.present [(ascii "k", Json.num 1)], ConfigParse.absent⟩ =
      Except.ok (some ⟨[(ascii "k", Json.num 1)], []⟩) ∧
    enricherFactoryNew ⟨ConfigParse.absent, ConfigParse.absent⟩ = Except.ok none ∧
    ∃ e, enricherFactoryNew ⟨ConfigParse.malformed, ConfigParse.absent⟩ = Except.error e := by
  refine ⟨?_, ?_, ?_⟩
  · exact ((C10_factory ⟨ConfigParse.present [(ascii "k", Json.num 1)],
      ConfigParse.absent⟩).2 [(ascii "k", Json.num 1)] [] rfl rfl).2 (by simp)
  · exact ((C10_factory ⟨ConfigParse.absent, ConfigParse.absent⟩).2 [] [] rfl rfl).1.mpr
      ⟨rfl, rfl⟩
  · exact (C10_factory ⟨ConfigParse.malformed, ConfigParse.absent⟩).1 (Or.inl rfl)

/-- C7: per-request body decode and parse failures are non-fatal
pass-throughs: a failing gzip decode in the segment plugin, a failed
SegmentData unmarshal, or a body that does not parse as a JSON object in the
enricher each leave the request bytes untouched, return serviced = false and
let the pipeline continue.  (The only error-response writes in the enricher
source sit on its body-read and marshal failure paths, which cannot fire on
in-memory bytes.) -/
theorem C7_failures_passthrough :
    (∀ (req : Request) (s : Bool) (now : Int) (bb : Bytes),
      req.body = some bb → headerGet req.headers "Content-Encoding" = "gzip" →
      gzipDecode bb = none →
      handleRequestA req s now = (req, false) ∧
      handleRequestB req s now = (req, false, [])) ∧
    (∀ (req : Request) (s : Bool) (now : Int) (bb content : Bytes),
      req.body = some bb → segmentContent req bb = some content →
      unmarshalSegmentData content = none →
      handleRequestA req s now = (req, false) ∧
      handleRequestB req s now = (req, false, [])) ∧
    (∀ (cfg : EnricherConfig) (req : Request) (bb : Bytes),
      req.body = some bb → parseObjTop bb = none →
      enrichBodyContent cfg req = (req, false)) := by
  refine ⟨?_, ?_, ?_⟩
  · intro req s now bb hb hce hgz
    have hs : segmentContent req bb = none := by
      rw [segmentContent, if_pos hce, hgz]
    exact ⟨handleRequestA_contentFail s now hb hs, handleRequestB_contentFail s now hb hs⟩
  · intro req s now bb content hb hs hu
    exact ⟨handleRequestA_parseFail s now hb hs hu, handleRequestB_parseFail s now hb hs hu⟩
  · intro cfg req bb hb hp
    rw [enrichBodyContent]
    split_ifs <;>
      first
        | rfl
        | (rw [hb]; dsimp only; split_ifs <;> first | rfl | rw [hp])

/-- C7 witness: a declared-gzip body without gzip framing, a body that is
not a bundle, and a non-JSON body each pass through the respective plugin
unchanged. -/
theorem C7_witness :
    (handleRequestA { wReq with headers := [("Content-Encoding", ["gzip"])] } false 5 =
        ({ wReq with headers := [("Content-Encoding", ["gzip"])] }, false) ∧
      handleRequestB { wReq with headers := [("Content-Encoding", ["gzip"])] } false 5 =
        ({ wReq with headers := [("Content-Encoding", ["gzip"])] }, false, [])) ∧
    (handleRequestA { wReq with body := some wBadJson } false 5 =
        ({ wReq with body := some wBadJson }, false) ∧
      handleRequestB { wReq with body := some wBadJson } false 5 =
        ({ wReq with body := some wBadJson }, false, [])) ∧
    enrichBodyContent wCfg { wEnrichReq with body := some wBadJson } =
      ({ wEnrichReq with body := some wBadJson }, false) := by
  refine ⟨?_, ?_, ?_⟩
  · exact C7_failures_passthrough.1 _ false 5 wBody rfl rfl rfl
  · exact C7_failures_passthrough.2.1 _ false 5 wBadJson wBadJson rfl rfl rfl
  · exact C7_failures_passthrough.2.2 wCfg _ wBadJson rfl rfl

/-- C1 counterexample: the segment-proxy variant of segment_proxy_plugin.go
does not pass the request through unmodified: on a navigate bundle it
rewrites the in-flight request to POST /v1/page instead of issuing a
side-effect request. -/
theorem C1_counterexample :
    wReq.path = "/rec/bundle/v2" ∧
    (handleRequestA wReq false 5).1.path = "/v1/page" ∧
    (handleRequestA wReq false 5).1 ≠ wReq := by
  exact ⟨rfl, by decide, by decide⟩

/-- C1 (amended): the fan-out segment-proxy variant behaves as the claim
states — the handler returns the request unmodified with serviced = false,
and every navigate delivery is an independent side-effect POST /v1/page —
while the variant in segment_proxy_plugin.go instead mutates the in-flight
request (see the counterexample). -/
theorem C1_fanout_unmodified (req : Request) (s : Bool) (now : Int) :
    (handleRequestB req s now).1 = req ∧
    (handleRequestB req s now).2.1 = false ∧
    ∀ d ∈ (handleRequestB req s now).2.2, d.method = "POST" ∧ d.path = "/v1/page" := by
  refine ⟨(handleRequestB_passthrough req s now).1,
    (handleRequestB_passthrough req s now).2, ?_⟩
  intro d hd
  rw [handleRequestB] at hd
  split_ifs at hd <;> (repeat' split at hd) <;>
    first
      | cases hd
      | (obtain ⟨e, _, hmk⟩ := List.mem_filterMap.mp hd
         exact mkDelivery_shape hmk)

/-- C1 witness: the fan-out variant at the navigate bundle leaves the
request intact and its delivery is a POST to /v1/page. -/
theorem C1_witness :
    (handleRequestB wReq false 5).1 = wReq ∧
    (handleRequestB wReq false 5).2.1 = false ∧
    (wDelivery.method = "POST" ∧ wDelivery.path = "/v1/page") := by
  obtain ⟨h1, h2, h3⟩ := C1_fanout_unmodified wReq false 5
  have hds : (handleRequestB wReq false 5).2.2 = [wDelivery] := rfl
  exact ⟨h1, h2, h3 wDelivery (by rw [hds]; exact List.mem_singleton.mpr rfl)⟩

/-- C2 counterexample: the variant in segment_proxy_plugin.go does not
process every path containing /rec/bundle/v2: the nested test path, whose
body holds a processable navigate event, is left completely untouched,
while the same body at the exact path is processed. -/
theorem C2_counterexample :
    strContains wNested.path "/rec/bundle/v2" = true ∧
    handleRequestA wNested false 5 = (wNested, false) ∧
    (handleRequestA wReq false 5).1.path = "/v1/page" := by
  exact ⟨by decide, by decide, by decide⟩

/-- C2 (amended): the fan-out variant matches by substring — a path not
containing /rec/bundle/v2 passes through untouched with no deliveries, and
on a containing path the decoded body is parsed and every event is processed
into its delivery — whereas the variant in segment_proxy_plugin.go acts only
on the exact path /rec/bundle/v2. -/
theorem C2_contains_match :
    (∀ (req : Request) (s : Bool) (now : Int),
      strContains req.path "/rec/bundle/v2" = false →
      handleRequestB req s now = (req, false, [])) ∧
    (∀ (req : Request) (now : Int) (bb content : Bytes) (sd : SegmentData),
      strContains req.path "/rec/bundle/v2" = true →
      req.body = some bb → segmentContent req bb = some content →
      unmarshalSegmentData content = some sd →
      (handleRequestB req false now).2.2 = sd.evts.filterMap
        (mkDelivery req sd.writeKey (ascii (queryGet req.query "UserId")) now)) ∧
    (∀ (req : Request) (s : Bool) (now : Int),
      req.path ≠ "/rec/bundle/v2" → handleRequestA req s now = (req, false)) := by
  refine ⟨?_, ?_, ?_⟩
  · intro req s now hc
    rw [handleRequestB]
    split_ifs with h1 h2 <;>
      first
        | rfl
        | (exact absurd h2 (by simp [hc]))
  · intro req now bb content sd hc hb hs hu
    rw [handleRequestB_success now hc hb hs hu]
  · intro req s now h
    exact handleRequestA_noMatch s now h

/-- C2 witness: a non-matching path is untouched by the fan-out variant, the
nested containing path is processed into its delivery, and the exact-match
variant ignores the nested path. -/
theorem C2_witness :
    handleRequestB { wReq with path := "/other/path" } false 5 =
      ({ wReq with path := "/other/path" }, false, []) ∧
    (handleRequestB wNested false 5).2.2 = wSd.evts.filterMap
      (mkDelivery wNested wSd.writeKey (ascii (queryGet wNested.query "UserId")) 5) ∧
    handleRequestA wNested false 5 = (wNested, false) := by
  refine ⟨?_, ?_, ?_⟩
  · exact C2_contains_match.1 _ false 5 (by decide)
  · exact C2_contains_match.2.1 wNested 5 wBody wBody wSd (by decide) rfl rfl rfl
  · exact C2_contains_match.2.2 wNested false 5 (by decide)

/-- C3 counterexample: a gzip-encoded JSON body is not enriched by the
content-enricher: the request passes through byte-identical although its
decoded form is an enrichable JSON object whose enrichment differs from it,
so the plugin performed no decode-enrich-reencode cycle. -/
theorem C3_counterexample :
    headerGet wGzipReq.headers "Content-Encoding" = "gzip" ∧
    enrichBodyContent wCfg wGzipReq = (wGzipReq, false) ∧
    (parseObjTop wPlain).isSome = true ∧
    gzipEncode wPlain ≠
      gzipEncode (marshal (Json.obj (insertAbsent wCfg.bodyEnrichments
        ((parseObjTop wPlain).getD [])))) := by
  exact ⟨rfl, by decide, by decide, by decide⟩

/-- C3 (amended): the content-enricher never decodes gzip itself: a request
whose body carries the gzip framing is returned unchanged with
serviced = false, because the framed bytes do not parse as a JSON object.
The gzip transparency exercised by the tests is provided by the relay core
around the plugin, not by the plugin. -/
theorem C3_gzip_passthrough (cfg : EnricherConfig) (req : Request) (b : Bytes)
    (h : req.body = some (gzipEncode b)) :
    enrichBodyContent cfg req = (req, false) := by
  rw [enrichBodyContent]
  split_ifs <;>
    first
      | rfl
      | (rw [h]
         dsimp only
         rw [if_neg (by simp [gzipEncode])]
         rw [show parseObjTop (gzipEncode b) = none from by
           rw [parseObjTop, parseJson_gzipEncode]])

/-- C3 witness: the concrete gzip-framed request passes through the
enricher unchanged. -/
theorem C3_witness : enrichBodyContent wCfg wGzipReq = (wGzipReq, false) :=
  C3_gzip_passthrough wCfg wGzipReq wPlain rfl

/-- C4: for every segment-proxy request whose parsed (and, when gzip,
decompressed) body holds an event of Kind 37 whose Args parse as a non-empty
string list, the delivered page request is a POST to /v1/page whose JSON
body carries the parsed writeKey, the inbound UserId query parameter as
userId, the current unix seconds as timestamp, Args[0] under
properties.url, and the name "track " followed by Args[0]. -/
theorem C4_navigate_delivery (req : Request) (now : Int) (bb content : Bytes)
    (sd : SegmentData) (e : Event) (url : Bytes) (rest : List Bytes)
    (hc : strContains req.path "/rec/bundle/v2" = true)
    (hb : req.body = some bb)
    (hs : segmentContent req bb = some content)
    (hu : unmarshalSegmentData content = some sd)
    (he : e ∈ sd.evts) (hk : e.kind = 37)
    (ha : argsToStrings e.args = some (url :: rest)) :
    ∃ d ∈ (handleRequestB req false now).2.2,
      d.method = "POST" ∧ d.path = "/v1/page" ∧
      d.body = marshal (Json.obj [
        (ascii "name", Json.str (ascii "track " ++ url)),
        (ascii "properties", Json.obj [(ascii "url", Json.str url)]),
        (ascii "timestamp", Json.num now),
        (ascii "userId", Json.str (ascii (queryGet req.query "UserId"))),
        (ascii "writeKey", Json.str sd.writeKey)]) := by
  rw [handleRequestB_success now hc hb hs hu]
  have hmk : mkDelivery req sd.writeKey (ascii (queryGet req.query "UserId")) now e =
      some { method := "POST", path := "/v1/page",
             headers := headerSet (req.headers.filter fun p => !(p.1 == "Content-Length"))
               "Content-Type" "application/json",
             body := pageBody sd.writeKey (ascii (queryGet req.query "UserId")) now url,
             contentLength :=
               ((pageBody sd.writeKey (ascii (queryGet req.query "UserId")) now url).length
                 : Int) } := by
    rw [mkDelivery, if_pos hk, ha]
  exact ⟨_, List.mem_filterMap.mpr ⟨e, he, hmk⟩, rfl, rfl, rfl⟩

/-- C4 witness: the navigate bundle of the plugin test yields a delivery
with exactly the claimed body fields. -/
theorem C4_witness :
    ∃ d ∈ (handleRequestB wReq false 5).2.2,
      d.method = "POST" ∧ d.path = "/v1/page" ∧
      d.body = marshal (Json.obj [
        (ascii "name", Json.str (ascii "track " ++ ascii "u")),
        (ascii "properties", Json.obj [(ascii "url", Json.str (ascii "u"))]),
        (ascii "timestamp", Json.num 5),
        (ascii "userId", Json.str (ascii (queryGet wReq.query "UserId"))),
        (ascii "writeKey", Json.str wSd.writeKey)]) :=
  C4_navigate_delivery wReq 5 wBody wBody wSd
    { kind := 37, args := some (Json.arr [Json.str (ascii "u")]) }
    (ascii "u") [] (by decide) rfl rfl rfl (List.mem_singleton.mpr rfl) rfl rfl

/-- C5 counterexample: in the variant of segment_proxy_plugin.go a parse
failure in one event does not skip only that event: with a malformed first
navigate event followed by a well-formed one, the handler aborts, the later
event produces nothing (the body keeps its original bytes, while the path is
already rewritten), whereas the well-formed event alone does produce its
page body. -/
theorem C5_counterexample :
    (handleRequestA wBadReq false 5).1.body = some wBadBody ∧
    (handleRequestA wBadReq false 5).1.path = "/v1/page" ∧
    (handleRequestA wGoodReq false 5).1.body =
      some (pageBody (ascii "k") (ascii "u") 5 (ascii "u")) := by
  exact ⟨by decide, by decide, rfl⟩

/-- C5 (amended): in the fan-out variant a parse failure (Args not a string
list, or empty) skips only that event: the deliveries are exactly those of
the events before and after it, and every later well-formed event still
produces its delivery.  In the segment_proxy_plugin.go variant a failing
event instead aborts all remaining events (see the counterexample). -/
theorem C5_skip_failing_only (req : Request) (now : Int) (bb content : Bytes)
    (sd : SegmentData) (pre post : List Event) (bad : Event)
    (hc : strContains req.path "/rec/bundle/v2" = true)
    (hb : req.body = some bb)
    (hs : segmentContent req bb = some content)
    (hu : unmarshalSegmentData content = some sd)
    (hsplit : sd.evts = pre ++ bad :: post)
    (hbad : mkDelivery req sd.writeKey (ascii (queryGet req.query "UserId")) now bad = none) :
    (handleRequestB req false now).2.2 =
      pre.filterMap (mkDelivery req sd.writeKey (ascii (queryGet req.query "UserId")) now) ++
        post.filterMap (mkDelivery req sd.writeKey (ascii (queryGet req.query "UserId")) now) ∧
    ∀ e ∈ post, ∀ d,
      mkDelivery req sd.writeKey (ascii (queryGet req.query "UserId")) now e = some d →
      d ∈ (handleRequestB req false now).2.2 := by
  rw [handleRequestB_success now hc hb hs hu]
  constructor
  · show (sd.evts.filterMap _) = _
    rw [hsplit, List.filterMap_append, List.filterMap_cons_none hbad]
  · intro e hepost d hd
    show d ∈ sd.evts.filterMap _
    rw [hsplit, List.filterMap_append]
    exact List.mem_append_right _
      (by rw [List.filterMap_cons_none hbad]
          exact List.mem_filterMap.mpr ⟨e, hepost, hd⟩)

/-- C5 witness: with a malformed navigate event before a well-formed one,
the fan-out variant still delivers for the later event. -/
theorem C5_witness :
    (handleRequestB wBadReq false 5).2.2 =
      ([] : List Event).filterMap
        (mkDelivery wBadReq wBadSd.writeKey (ascii (queryGet wBadReq.query "UserId")) 5) ++
      [({ kind := 37, args := some (Json.arr [Json.str (ascii "u")]) } : Event)].filterMap
        (mkDelivery wBadReq wBadSd.writeKey (ascii (queryGet wBadReq.query "UserId")) 5) := by
  exact (C5_skip_failing_only wBadReq 5 wBadBody wBadBody wBadSd []
    [{ kind := 37, args := some (Json.arr [Json.str (ascii "u")]) }]
    { kind := 37, args := some (Json.str (ascii "x")) }
    (by decide) rfl rfl rfl rfl rfl).1

/-! ### Header lemmas and the Content-Length invariant -/

lemma find?_filter_ne (h : Headers) (k k2 : String) (hne : k ≠ k2) :
    (h.filter fun p => !(p.1 == k)).find? (fun p => p.1 == k2) =
      h.find? (fun p => p.1 == k2) := by
  induction h with
  | nil => rfl
  | cons q h ih =>
    by_cases hq : q.1 = k
    · have hq2 : (q.1 == k2) = false := by
        rw [beq_eq_false_iff_ne]
        rw [hq]
        exact hne
      rw [List.filter_cons, if_neg (by simp [hq]), List.find?_cons, hq2, ih]
    · rw [List.filter_cons, if_pos (by simp [hq]), List.find?_cons, List.find?_cons]
      cases hq2 : (q.1 == k2) with
      | true => rfl
      | false => exact ih

lemma headerGet_set_same (h : Headers) (k v : String) :
    headerGet (headerSet h k v) k = v := by
  rw [headerGet, headerSet, List.find?_cons]
  simp

lemma headerGet_set_ne (h : Headers) {k k2 : String} (v : String) (hne : k ≠ k2) :
    headerGet (headerSet h k v) k2 = headerGet h k2 := by
  rw [headerGet, headerSet, List.find?_cons]
  have : (k == k2) = false := by rwa [beq_eq_false_iff_ne]
  rw [this, find?_filter_ne h k k2 hne, headerGet]

lemma headerSet_set_same (h : Headers) (k v : String) :
    headerSet (headerSet h k v) k v = headerSet h k v := by
  rw [headerSet, headerSet, List.filter_cons, if_neg (by simp), List.filter_filter]
  simp

lemma headerGet_add_ne (h : Headers) {k k2 : String} (v : String) (hne : k ≠ k2) :
    headerGet (headerAdd h k v) k2 = headerGet h k2 := by
  induction h with
  | nil =>
    rw [headerAdd, headerGet, headerGet, List.find?_cons]
    have : (k == k2) = false := by rwa [beq_eq_false_iff_ne]
    rw [this]
  | cons q h ih =>
    obtain ⟨k3, vs⟩ := q
    rw [headerAdd]
    split_ifs with h3
    · rw [headerGet, headerGet, List.find?_cons, List.find?_cons]
      have : (k3 == k2) = false := by
        rw [beq_eq_false_iff_ne, h3]
        exact hne
      rw [this]
    · rw [headerGet, headerGet, List.find?_cons, List.find?_cons]
      cases hq2 : (k3 == k2) with
      | true => rfl
      | false => exact ih

lemma headerGet_foldl_set_ne (cfgh : List (String × String)) {k2 : String}
    (hno : ∀ p ∈ cfgh, p.1 ≠ k2) :
    ∀ h : Headers,
      headerGet (cfgh.foldl (fun acc p => headerSet acc p.1 p.2) h) k2 = headerGet h k2 := by
  induction cfgh with
  | nil => intro h; rfl
  | cons p cfgh ih =>
    intro h
    rw [List.foldl_cons, ih (fun q hq => hno q (List.mem_cons_of_mem p hq)),
      headerGet_set_ne h p.2 (hno p (List.mem_cons_self p cfgh))]

lemma clInv_processEventsA (wk uid : Bytes) (now : Int) :
    ∀ (evts : List Event) (req : Request), clInv req →
      clInv (processEventsA wk uid now req evts) := by
  intro evts
  induction evts with
  | nil => intro req hinv; exact hinv
  | cons e evts ih =>
    intro req hinv
    rw [processEventsA]
    split_ifs with hk
    · split
      · exact hinv
      · exact hinv
      · apply ih
        constructor
        · rfl
        · exact headerGet_set_same _ _ _
    · exact ih req hinv

lemma clInv_enrichBodyContent (cfg : EnricherConfig) (req : Request)
    (hinv : clInv req) : clInv (enrichBodyContent cfg req).1 := by
  rw [enrichBodyContent]
  split_ifs <;>
    first
      | exact hinv
      | (cases hb : req.body with
         | none => exact hinv
         | some bb =>
           dsimp only
           split_ifs
           · exact hinv
           · cases hp : parseObjTop bb with
             | none => exact hinv
             | some kvs =>
               dsimp only
               exact ⟨rfl, headerGet_set_same _ _ _⟩)

/-- C8: plugins keep the Content-Length header and request.ContentLength
equal to the current body length: if a request satisfies the invariant, the
request each handler returns still satisfies it — in particular, when the
enricher replaces the body or the segment plugin of segment_proxy_plugin.go
rewrites it for a navigate event, both fields are set to the new body
length.  (The header-enrichment table is assumed not to configure the
Content-Length header itself, which would overwrite the tracked value.) -/
theorem C8_content_length (cfg : EnricherConfig) (req : Request) (s : Bool) (now : Int)
    (hcfg : ∀ p ∈ cfg.headerEnrichments, p.1 ≠ "Content-Length")
    (hinv : clInv req) :
    clInv (enricherHandleRequest cfg req s).1 ∧
    clInv (handleRequestA req s now).1 ∧
    clInv (handleRequestB req s now).1 := by
  refine ⟨?_, ?_, ?_⟩
  · have hinv1 : clInv (enrichHeaderContent cfg req) := by
      rw [enrichHeaderContent]
      split_ifs <;>
        first
          | exact hinv
          | exact ⟨hinv.1, by
              show headerGet (cfg.headerEnrichments.foldl
                  (fun h p => headerSet h p.1 p.2) req.headers) "Content-Length" =
                toString (req.body.getD []).length
              rw [headerGet_foldl_set_ne cfg.headerEnrichments hcfg req.headers]
              exact hinv.2⟩
    have hinv2 := clInv_enrichBodyContent cfg (enrichHeaderContent cfg req) hinv1
    simp only [enricherHandleRequest]
    split_ifs <;>
      first
        | exact hinv
        | exact hinv2
        | exact ⟨hinv2.1, by
            show headerGet (headerAdd
                (enrichBodyContent cfg (enrichHeaderContent cfg req)).1.headers
                enricherVersionHeader relayRelease) "Content-Length" =
              toString ((enrichBodyContent cfg
                (enrichHeaderContent cfg req)).1.body.getD []).length
            rw [headerGet_add_ne _ relayRelease (by decide)]
            exact hinv2.2⟩
  · rw [handleRequestA]
    split_ifs <;>
      first
        | exact hinv
        | (cases hb : req.body with
           | none => exact hinv
           | some bb =>
             dsimp only
             cases hs : segmentContent req bb with
             | none => exact hinv
             | some content =>
               dsimp only
               cases hu : unmarshalSegmentData content with
               | none => exact hinv
               | some sd =>
                 exact clInv_processEventsA _ _ now sd.evts req hinv)
  · rw [(handleRequestB_passthrough req s now).1]
    exact hinv

/-- C8 witness: the invariant holds after each handler on a concrete
consistent request. -/
theorem C8_witness :
    clInv (enricherHandleRequest wCfg wEnrichReq false).1 ∧
    clInv (handleRequestA wEnrichReq false 5).1 ∧
    clInv (handleRequestB wEnrichReq false 5).1 := by
  exact C8_content_length wCfg wEnrichReq false 5 (by intro p hp; cases hp)
    ⟨by decide, by decide⟩

/-! ### C6: the enricher body transform -/

lemma marshal_obj_len (l : List (Bytes × Json)) :
    (marshal (Json.obj l)).length ≠ 0 := by
  simp [marshal]

lemma parseJson_ukeys {bs : Bytes} {v : Json} (h : parseJson bs = some v) :
    ukeys v = true := by
  rw [parseJson] at h
  cases hp : parseValue (2 * bs.length + 2) bs with
  | none => rw [hp] at h; cases h
  | some pr =>
    obtain ⟨v2, rest⟩ := pr
    rw [hp] at h
    dsimp only at h
    split_ifs at h
    injection h with h2
    subst h2
    exact (parse_ukeys _).1 bs v2 rest hp

lemma parseObjTop_ukeys {bs : Bytes} {kvs : List (Bytes × Json)}
    (h : parseObjTop bs = some kvs) :
    nodupKeys kvs = true ∧ ukeysFields kvs = true := by
  rw [parseObjTop] at h
  cases hp : parseJson bs with
  | none => rw [hp] at h; cases h
  | some v =>
    rw [hp] at h
    cases v with
    | obj kvs2 =>
      dsimp only at h
      injection h with h2
      subst h2
      have hu := parseJson_ukeys hp
      simp only [ukeys, Bool.and_eq_true] at hu
      exact hu
    | null => dsimp only at h; cases h
    | bool b => dsimp only at h; cases h
    | num n => dsimp only at h; cases h
    | str s => dsimp only at h; cases h
    | arr es => dsimp only at h; cases h

lemma canon_obj (l : List (Bytes × Json)) :
    canon (Json.obj l) = Json.obj (sortF (canonFields l)) := rfl

lemma nodupKeys_sortF_canonFields (l : List (Bytes × Json)) :
    nodupKeys (sortF (canonFields l)) = nodupKeys l := by
  rw [nodupKeys_perm (sortF_perm (canonFields l)), nodupKeys_canonFields]

lemma mem_keys_sortF_canonFields {k : Bytes} {l : List (Bytes × Json)} :
    k ∈ (sortF (canonFields l)).map Prod.fst ↔ k ∈ l.map Prod.fst := by
  have hperm := (sortF_perm (canonFields l)).map Prod.fst
  rw [keys_canonFields] at hperm
  exact hperm.mem_iff

lemma jlookup_sortF_canonFields {l : List (Bytes × Json)} (hnd : nodupKeys l = true)
    (k : Bytes) :
    jlookup k (sortF (canonFields l)) = (jlookup k l).map canon := by
  have hnd2 : nodupKeys (sortF (canonFields l)) = true := by
    rw [nodupKeys_sortF_canonFields]; exact hnd
  rw [jlookup_perm (sortF_perm (canonFields l)) hnd2 k, jlookup_canonFields]

/-- The successful enrichment path spelled out: body replaced by the marshal
of the absent-only-enriched object, with Content-Length updated in the header
map and the request field. -/
lemma enrichBodyContent_success {cfg : EnricherConfig} {req : Request} {b : Bytes}
    {kvs : List (Bytes × Json)}
    (hne : cfg.bodyEnrichments.isEmpty = false)
    (hct : headerGet req.headers "Content-Type" = "application/json")
    (hb : req.body = some b) (hlen : b.length ≠ 0)
    (hp : parseObjTop b = some kvs) :
    enrichBodyContent cfg req =
      ({ req with
          body := some (marshal (Json.obj (insertAbsent cfg.bodyEnrichments kvs)))
          contentLength :=
            ((marshal (Json.obj (insertAbsent cfg.bodyEnrichments kvs))).length : Int)
          headers := headerSet req.headers "Content-Length"
            (toString (marshal (Json.obj (insertAbsent cfg.bodyEnrichments kvs))).length) },
        false) := by
  rw [enrichBodyContent, if_neg (by rw [hne]; exact Bool.false_ne_true),
    if_neg (fun hh => hh hct), hb]
  dsimp only
  rw [if_neg hlen, hp]

/-- C6: the content enricher enriches the body only when the Content-Type is
exactly application/json, the body is present and non-empty, and it parses as
a JSON object; on success every key already present keeps its value (up to
the canonical re-serialisation order) and every configured key that was
absent appears with its configured value; and a second application of the
body enrichment changes nothing (idempotence). -/
theorem C6_enricher (cfg : EnricherConfig) (req : Request)
    (hcfgU : (cfg.bodyEnrichments.map Prod.fst).Nodup)
    (hcfgV : ∀ p ∈ cfg.bodyEnrichments, ukeys p.2 = true) :
    (headerGet req.headers "Content-Type" ≠ "application/json" →
      enrichBodyContent cfg req = (req, false)) ∧
    (req.body = none → enrichBodyContent cfg req = (req, false)) ∧
    (∀ b, req.body = some b → b.length = 0 →
      enrichBodyContent cfg req = (req, false)) ∧
    (∀ b, req.body = some b → parseObjTop b = none →
      enrichBodyContent cfg req = (req, false)) ∧
    (∀ b kvs, cfg.bodyEnrichments.isEmpty = false →
      headerGet req.headers "Content-Type" = "application/json" →
      req.body = some b → b.length ≠ 0 → parseObjTop b = some kvs →
      ∃ kvs2, parseObjTop ((enrichBodyContent cfg req).1.body.getD []) = some kvs2 ∧
        (∀ k, k ∈ kvs.map Prod.fst → jlookup k kvs2 = (jlookup k kvs).map canon) ∧
        (∀ k v, (k, v) ∈ cfg.bodyEnrichments → k ∉ kvs.map Prod.fst →
          jlookup k kvs2 = some (canon v))) ∧
    enrichBodyContent cfg (enrichBodyContent cfg req).1 = enrichBodyContent cfg req := by
  have hg1 : ∀ r : Request, headerGet r.headers "Content-Type" ≠ "application/json" →
      enrichBodyContent cfg r = (r, false) := by
    intro r hct
    rw [enrichBodyContent]
    split_ifs <;> rfl
  have hfail : ∀ r : Request,
      r.body = none ∨ (∃ b2, r.body = some b2 ∧ (b2.length = 0 ∨ parseObjTop b2 = none)) →
      enrichBodyContent cfg r = (r, false) := by
    intro r hcase
    rw [enrichBodyContent]
    split_ifs with h1 h2
    · rfl
    · rfl
    · rcases hcase with hnone | ⟨b2, hb2, hrest⟩
      · rw [hnone]
      · rw [hb2]
        dsimp only
        rcases hrest with hl | hpn
        · rw [if_pos hl]
        · by_cases hl0 : b2.length = 0
          · rw [if_pos hl0]
          · rw [if_neg hl0, hpn]
  refine ⟨fun hct => hg1 req hct, fun hn => hfail req (Or.inl hn),
    fun b hb hl => hfail req (Or.inr ⟨b, hb, Or.inl hl⟩),
    fun b hb hpn => hfail req (Or.inr ⟨b, hb, Or.inr hpn⟩), ?_, ?_⟩
  · intro b kvs hne hct hb hlen hp
    have hpk := parseObjTop_ukeys hp
    have hndE : nodupKeys (insertAbsent cfg.bodyEnrichments kvs) = true :=
      nodupKeys_insertAbsent cfg.bodyEnrichments hpk.1
    have hukE : ukeysFields (insertAbsent cfg.bodyEnrichments kvs) = true :=
      ukeysFields_insertAbsent hpk.2 hcfgV
    have hukO : ukeys (Json.obj (insertAbsent cfg.bodyEnrichments kvs)) = true := by
      simp only [ukeys]; rw [hndE, hukE]; rfl
    have hpm := parseJson_marshal (Json.obj (insertAbsent cfg.bodyEnrichments kvs)) hukO
    have hpt : parseObjTop (marshal (Json.obj (insertAbsent cfg.bodyEnrichments kvs))) =
        some (sortF (canonFields (insertAbsent cfg.bodyEnrichments kvs))) := by
      rw [parseObjTop, hpm, canon_obj]
    have hres := enrichBodyContent_success hne hct hb hlen hp
    refine ⟨sortF (canonFields (insertAbsent cfg.bodyEnrichments kvs)), ?_, ?_, ?_⟩
    · rw [hres]
      exact hpt
    · intro k hk
      rw [jlookup_sortF_canonFields hndE k,
        jlookup_insertAbsent_present cfg.bodyEnrichments hk]
    · intro k v hpv habs
      rw [jlookup_sortF_canonFields hndE k,
        jlookup_insertAbsent_absent hcfgU hpv habs]
      rfl
  · by_cases hne : cfg.bodyEnrichments.isEmpty = true
    · have h1 : enrichBodyContent cfg req = (req, false) := by
        rw [enrichBodyContent, if_pos hne]
      rw [h1]
      exact h1
    · have hneF : cfg.bodyEnrichments.isEmpty = false := by
        cases h2 : cfg.bodyEnrichments.isEmpty with
        | false => rfl
        | true => exact absurd h2 hne
      by_cases hct : headerGet req.headers "Content-Type" = "application/json"
      · cases hb : req.body with
        | none =>
          have h1 := hfail req (Or.inl hb)
          rw [h1]
          exact h1
        | some b =>
          by_cases hlen : b.length = 0
          · have h1 := hfail req (Or.inr ⟨b, hb, Or.inl hlen⟩)
            rw [h1]
            exact h1
          · cases hp : parseObjTop b with
            | none =>
              have h1 := hfail req (Or.inr ⟨b, hb, Or.inr hp⟩)
              rw [h1]
              exact h1
            | some kvs =>
              have hpk := parseObjTop_ukeys hp
              have hndE : nodupKeys (insertAbsent cfg.bodyEnrichments kvs) = true :=
                nodupKeys_insertAbsent cfg.bodyEnrichments hpk.1
              have hukE : ukeysFields (insertAbsent cfg.bodyEnrichments kvs) = true :=
                ukeysFields_insertAbsent hpk.2 hcfgV
              have hukO : ukeys (Json.obj (insertAbsent cfg.bodyEnrichments kvs)) = true := by
                simp only [ukeys]; rw [hndE, hukE]; rfl
              have hpm :=
                parseJson_marshal (Json.obj (insertAbsent cfg.bodyEnrichments kvs)) hukO
              have hpt : parseObjTop
                  (marshal (Json.obj (insertAbsent cfg.bodyEnrichments kvs))) =
                  some (sortF (canonFields (insertAbsent cfg.bodyEnrichments kvs))) := by
                rw [parseObjTop, hpm, canon_obj]
              have hres := enrichBodyContent_success hneF hct hb hlen hp
              have hct2 : headerGet (headerSet req.headers "Content-Length"
                  (toString
                    (marshal (Json.obj (insertAbsent cfg.bodyEnrichments kvs))).length))
                  "Content-Type" = "application/json" := by
                rw [headerGet_set_ne req.headers _ (by decide)]
                exact hct
              have hcov : insertAbsent cfg.bodyEnrichments
                  (sortF (canonFields (insertAbsent cfg.bodyEnrichments kvs))) =
                  sortF (canonFields (insertAbsent cfg.bodyEnrichments kvs)) := by
                apply insertAbsent_of_covered
                intro p hpmem
                rw [mem_keys_sortF_canonFields]
                exact insertAbsent_keys_covered p hpmem
              have hM : marshal (Json.obj
                  (sortF (canonFields (insertAbsent cfg.bodyEnrichments kvs)))) =
                  marshal (Json.obj (insertAbsent cfg.bodyEnrichments kvs)) := by
                have hmc := marshal_canon (Json.obj (insertAbsent cfg.bodyEnrichments kvs))
                rw [canon_obj] at hmc
                exact hmc
              have hmain : enrichBodyContent cfg
                  { req with
                      body := some
                        (marshal (Json.obj (insertAbsent cfg.bodyEnrichments kvs)))
                      contentLength := ((marshal
                        (Json.obj (insertAbsent cfg.bodyEnrichments kvs))).length : Int)
                      headers := headerSet req.headers "Content-Length"
                        (toString (marshal
                          (Json.obj (insertAbsent cfg.bodyEnrichments kvs))).length) } =
                  ({ req with
                      body := some
                        (marshal (Json.obj (insertAbsent cfg.bodyEnrichments kvs)))
                      contentLength := ((marshal
                        (Json.obj (insertAbsent cfg.bodyEnrichments kvs))).length : Int)
                      headers := headerSet req.headers "Content-Length"
                        (toString (marshal
                          (Json.obj (insertAbsent cfg.bodyEnrichments kvs))).length) },
                    false) := by
                refine Eq.trans
                  (enrichBodyContent_success hneF hct2 rfl (marshal_obj_len _) hpt) ?_
                dsimp only
                rw [hcov, hM, headerSet_set_same]
              rw [hres]
              exact hmain
      · have h1 := hg1 req hct
        rw [h1]
        exact h1

/-- C6 witness: on a concrete config and request the enrichment is idempotent. -/
theorem C6_witness :
    ((wCfg.bodyEnrichments.map Prod.fst).Nodup ∧
      ∀ p ∈ wCfg.bodyEnrichments, ukeys p.2 = true) ∧
    enrichBodyContent wCfg (enrichBodyContent wCfg wEnrichReq).1 =
      enrichBodyContent wCfg wEnrichReq :=
  ⟨⟨by decide, by decide⟩,
    (C6_enricher wCfg wEnrichReq (by decide) (by decide)).2.2.2.2.2⟩

end RelayCore
